import Mathlib

/-!
# Cpp-Concurrency: `para::ThreadsafeStack`, `para::EmptyStackException`, `concur::ThreadGuard`

A shallow embedding of `src/ch03/threadsafe_stack.hpp` and of
`src/ch02/raii_for_thread.cpp`.

* `std::string` is a Lean `String`; a `const char*` is a `CStr`, the characters in
  front of the terminating NUL.
* `std::stack<Value>` is the list held by its underlying container, the back of the
  list being the top.
* `std::mutex` is explicit state (`free` / `held`); `std::lock_guard` locks where it is
  declared and unlocks at every exit of its scope.
* A member function is a function from the state it starts in to an `Outcome`:
  it returns, it throws, it waits for a mutex, or it has undefined behaviour.
* The same member functions are also given statement by statement (`Caller.step`):
  `Guard g{mutex_}`, each access to `data_`, `~Guard`. Threads are callers that share
  one stack; a schedule picks the thread that executes its next statement, and a
  thread at `Guard g{mutex_}` moves only when the mutex is free.
* In the copy constructor `this` and `other` are addresses in a `Store`, so that
  `other` may be the stack under construction.
* A `std::thread` handle records whether it is joinable, whether it is the handle of
  the calling thread, and whether its thread finishes; `join()` returns, throws a
  `std::system_error`, or never returns (`Ended`).
-/

namespace para

/-! ## Strings -/

/-- The character that ends a C string. -/
def NUL : Char := Char.ofNat 0

/-- A `const char*` message: the characters in front of the terminating NUL. -/
structure CStr where
  chars : List Char
  nul_free : ∀ c ∈ chars, c ≠ NUL

/-- `std::string::c_str()`: the contents read as a C string, which ends at the first NUL. -/
def c_str (s : String) : CStr :=
  ⟨s.data.takeWhile (fun c => decide (c ≠ NUL)), by
    intro c hc
    have h := List.mem_takeWhile_imp hc
    simpa using h⟩

/-- `std::string(const char*)`: the characters up to the terminator. -/
def string_of_c_str (p : CStr) : String := ⟨p.chars⟩

/-! ## `EmptyStackException` -/

/-- `class EmptyStackException`, its only member is `const std::string msg_`. -/
structure EmptyStackException where
  msg_ : String
  deriving DecidableEq

/-- The literal of the default constructor, as the `const char*` it is. -/
def defaultMessage : CStr :=
  ⟨"para exception : empty stack".data, by decide⟩

/-- `EmptyStackException()`: `msg_{"para exception : empty stack"}`. -/
def EmptyStackException.default : EmptyStackException :=
  ⟨string_of_c_str defaultMessage⟩

/-- `explicit EmptyStackException(const char* msg)`: `msg_{msg}`. -/
def EmptyStackException.of_c_str (msg : CStr) : EmptyStackException :=
  ⟨string_of_c_str msg⟩

/-- `explicit EmptyStackException(const std::string& msg)`: `msg_{msg.c_str()}`. -/
def EmptyStackException.of_string (msg : String) : EmptyStackException :=
  ⟨string_of_c_str (c_str msg)⟩

/-- `explicit EmptyStackException(std::string&& msg)`: `msg_{std::move(msg).c_str()}`. -/
def EmptyStackException.of_string_rvalue (msg : String) : EmptyStackException :=
  ⟨string_of_c_str (c_str msg)⟩

/-- `what()`: `return msg_.c_str();`. -/
def EmptyStackException.what (e : EmptyStackException) : CStr :=
  c_str e.msg_

/-- A `std::string` of length 3 with a NUL in the middle. -/
def nulMessage : String := ⟨['a', NUL, 'b']⟩

/-! ## Mutex and outcomes -/

/-- State of a `std::mutex`. -/
inductive Mutex where
  | free
  | held
  deriving DecidableEq, Repr

/-- `std::mutex::lock()`: takes a free mutex; on a held one the caller waits (`none`). -/
def Mutex.lock : Mutex → Option Mutex
  | Mutex.free => some Mutex.held
  | Mutex.held => none

/-- `std::mutex::unlock()`, called by `~lock_guard` on the mutex it holds. -/
def Mutex.unlock : Mutex → Mutex
  | _ => Mutex.free

/-- How a call ends: `σ` is the state it leaves behind, `α` what it returns. -/
inductive Outcome (σ α : Type) where
  /-- normal return -/
  | returned (result : α) (state : σ)
  /-- exit by `throw para::EmptyStackException` -/
  | thrown (e : EmptyStackException) (state : σ)
  /-- the caller waits in `mutex_.lock()` -/
  | blocked
  /-- undefined behaviour (`top()` or `pop()` of an empty `std::stack`) -/
  | undefined
  deriving DecidableEq

/-! ## `std::stack` -/

/-- `std::stack<Value>::push`: `c.push_back(v)`. -/
def stack_push {Value : Type} (c : List Value) (v : Value) : List Value := c ++ [v]

/-- `std::stack<Value>::top`: `c.back()`, undefined (`none`) on an empty stack. -/
def stack_top {Value : Type} (c : List Value) : Option Value := c.getLast?

/-- `std::stack<Value>::pop`: `c.pop_back()`, undefined (`none`) on an empty stack. -/
def stack_pop {Value : Type} (c : List Value) : Option (List Value) :=
  if c.isEmpty then none else some c.dropLast

/-- `std::stack<Value>::empty`. -/
def stack_empty {Value : Type} (c : List Value) : Bool := c.isEmpty

/-! ## `ThreadsafeStack` -/

/-- `std::shared_ptr<Value>`: `none` is the null pointer, `some v` points to `v`. -/
abbrev SharedPointer (Value : Type) : Type := Option Value

/-- `std::make_shared<Value>(v)`. -/
def make_shared {Value : Type} (v : Value) : SharedPointer Value := some v

/-- `class ThreadsafeStack<Value>`: `std::stack<Value> data_; mutable std::mutex mutex_;`. -/
structure ThreadsafeStack (Value : Type) where
  data_ : List Value
  mutex_ : Mutex
  deriving DecidableEq

namespace ThreadsafeStack

variable {Value : Type}

/-- `ThreadsafeStack(){}`: both members default-constructed. -/
def new : ThreadsafeStack Value := ⟨[], Mutex.free⟩

/-- `throw_exception_if_empty()`: `if(data_.empty()) throw para::EmptyStackException{};`. -/
def throw_exception_if_empty (data_ : List Value) : Except EmptyStackException Unit :=
  if stack_empty data_ then Except.error EmptyStackException.default else Except.ok ()

/-- Copy constructor, `ThreadsafeStack(const ThreadsafeStack& other)`:
`Guard g{other.mutex_}; data_ = other.data_;`. The result is the new stack, the state
is that of `other`. -/
def copy (other : ThreadsafeStack Value) :
    Outcome (ThreadsafeStack Value) (ThreadsafeStack Value) :=
  let this : ThreadsafeStack Value := ⟨[], Mutex.free⟩
  match other.mutex_.lock with
  | none => Outcome.blocked
  | some g =>
    let this := { this with data_ := other.data_ }
    Outcome.returned this { other with mutex_ := g.unlock }

/-- `void push(Value new_val)`: `Guard g{mutex_}; data_.push(new_val);`. -/
def push (s : ThreadsafeStack Value) (new_val : Value) :
    Outcome (ThreadsafeStack Value) Unit :=
  match s.mutex_.lock with
  | none => Outcome.blocked
  | some g =>
    let data := stack_push s.data_ new_val
    Outcome.returned () { data_ := data, mutex_ := g.unlock }

/-- `SharedPointer pop()`: under the guard, `throw_exception_if_empty()`, then
`make_shared<Value>(data_.top())`, `data_.pop()`, `return pointer`. -/
def pop (s : ThreadsafeStack Value) :
    Outcome (ThreadsafeStack Value) (SharedPointer Value) :=
  match s.mutex_.lock with
  | none => Outcome.blocked
  | some g =>
    match throw_exception_if_empty s.data_ with
    | Except.error e => Outcome.thrown e { s with mutex_ := g.unlock }
    | Except.ok () =>
      match stack_top s.data_ with
      | none => Outcome.undefined
      | some top =>
        let pointer := make_shared top
        match stack_pop s.data_ with
        | none => Outcome.undefined
        | some data => Outcome.returned pointer { data_ := data, mutex_ := g.unlock }

/-- `void pop(Value& dest)`: under the guard, `throw_exception_if_empty()`, then
`dest = data_.top()`, `data_.pop()`. The state is the stack together with `dest`. -/
def pop_dest (s : ThreadsafeStack Value) (dest : Value) :
    Outcome (ThreadsafeStack Value × Value) Unit :=
  match s.mutex_.lock with
  | none => Outcome.blocked
  | some g =>
    match throw_exception_if_empty s.data_ with
    | Except.error e => Outcome.thrown e ({ s with mutex_ := g.unlock }, dest)
    | Except.ok () =>
      match stack_top s.data_ with
      | none => Outcome.undefined
      | some top =>
        let dest := top
        match stack_pop s.data_ with
        | none => Outcome.undefined
        | some data => Outcome.returned () ({ data_ := data, mutex_ := g.unlock }, dest)

/-- `bool empty() const`: `Guard g{mutex_}; return data_.empty();`. -/
def empty (s : ThreadsafeStack Value) : Outcome (ThreadsafeStack Value) Bool :=
  match s.mutex_.lock with
  | none => Outcome.blocked
  | some g => Outcome.returned (stack_empty s.data_) { s with mutex_ := g.unlock }

/-! ### Single-threaded callers -/

/-- `s.push(v1); s.push(v2); ...`, in the order of the list. -/
def pushes (s : ThreadsafeStack Value) : List Value → Option (ThreadsafeStack Value)
  | [] => some s
  | v :: vs =>
    match push s v with
    | Outcome.returned () s1 => pushes s1 vs
    | _ => none

/-- `n` calls of `s.pop()` that all return; the pointers are listed in call order. -/
def pops (s : ThreadsafeStack Value) :
    Nat → Option (List (SharedPointer Value) × ThreadsafeStack Value)
  | 0 => some ([], s)
  | n + 1 =>
    match pop s with
    | Outcome.returned p s1 => (pops s1 n).map (fun r => (p :: r.1, r.2))
    | _ => none

/-- Drain by `s.pop()` until `EmptyStackException` is caught, at most `fuel` calls:
the pointers returned in call order, and the stack left behind. -/
def drain (s : ThreadsafeStack Value) :
    Nat → Option (List (SharedPointer Value) × ThreadsafeStack Value)
  | 0 => none
  | fuel + 1 =>
    match pop s with
    | Outcome.returned p s1 => (drain s1 fuel).map (fun r => (p :: r.1, r.2))
    | Outcome.thrown _ s1 => some ([], s1)
    | _ => none

/-- One call made by a client; `pop_dest` carries the value its `dest` holds. -/
inductive Call (Value : Type) where
  | push (v : Value)
  | pop
  | pop_dest (dest : Value)

/-- Whether the call is a `push`. -/
def Call.is_push : Call Value → Bool
  | Call.push _ => true
  | _ => false

/-- What a client has seen of a run: the stack, the number of `push` calls made and the
number of `pop` calls (of either overload) that returned. -/
structure Run (Value : Type) where
  stack : ThreadsafeStack Value
  pushed : Nat
  popped : Nat

/-- A client that makes the calls in order and catches every `EmptyStackException`;
`none` when a call waits for the mutex or is undefined. -/
def run (r : Run Value) : List (Call Value) → Option (Run Value)
  | [] => some r
  | Call.push v :: cs =>
    match push r.stack v with
    | Outcome.returned () s1 => run { r with stack := s1, pushed := r.pushed + 1 } cs
    | _ => none
  | Call.pop :: cs =>
    match pop r.stack with
    | Outcome.returned _ s1 => run { r with stack := s1, popped := r.popped + 1 } cs
    | Outcome.thrown _ s1 => run { r with stack := s1 } cs
    | _ => none
  | Call.pop_dest dest :: cs =>
    match pop_dest r.stack dest with
    | Outcome.returned () (s1, _) => run { r with stack := s1, popped := r.popped + 1 } cs
    | Outcome.thrown _ (s1, _) => run { r with stack := s1 } cs
    | _ => none

end ThreadsafeStack

/-! ## The member functions statement by statement

Each member function is a `Guard g{mutex_}` followed by accesses to `data_`, and
`~Guard` runs when the scope is left, by `return` or by the exception in flight. A
`Caller` is a thread somewhere inside one call; `Caller.step` executes its next
statement on the stack it shares with the other callers. -/

/-- A call of one member function on a stack; `copy` is a copy construction from it. -/
inductive Op (Value : Type) where
  | push (new_val : Value)
  | pop
  | pop_dest (dest : Value)
  | empty
  | copy
  deriving DecidableEq

/-- What the caller has when the call is over: the value returned, or the exception
thrown; for `pop(dest)` the value `dest` holds, for `copy` the stack constructed. -/
inductive Response (Value : Type) where
  | push_returned
  | pop_returned (pointer : SharedPointer Value)
  | pop_thrown (e : EmptyStackException)
  | pop_dest_returned (dest : Value)
  | pop_dest_thrown (e : EmptyStackException) (dest : Value)
  | empty_returned (b : Bool)
  | copy_returned (this : ThreadsafeStack Value)
  deriving DecidableEq

/-- The call as one step, by the member functions above: the response and the stack
left behind; `none` when the call waits for the mutex or is undefined. -/
def Op.call {Value : Type} (op : Op Value) (s : ThreadsafeStack Value) :
    Option (Response Value × ThreadsafeStack Value) :=
  match op with
  | Op.push v =>
    match s.push v with
    | Outcome.returned () s1 => some (Response.push_returned, s1)
    | _ => none
  | Op.pop =>
    match s.pop with
    | Outcome.returned p s1 => some (Response.pop_returned p, s1)
    | Outcome.thrown e s1 => some (Response.pop_thrown e, s1)
    | _ => none
  | Op.pop_dest dest =>
    match s.pop_dest dest with
    | Outcome.returned () (s1, d) => some (Response.pop_dest_returned d, s1)
    | Outcome.thrown e (s1, d) => some (Response.pop_dest_thrown e d, s1)
    | _ => none
  | Op.empty =>
    match s.empty with
    | Outcome.returned b s1 => some (Response.empty_returned b, s1)
    | _ => none
  | Op.copy =>
    match s.copy with
    | Outcome.returned c s1 => some (Response.copy_returned c, s1)
    | _ => none

/-- The member of `data_` a statement uses: `empty()`, `top()`, `pop()`, `push(..)`, or
the read of the whole of `other.data_` in the copy constructor. -/
inductive Access where
  | empty
  | top
  | pop
  | push
  | read
  deriving DecidableEq, Repr

/-- What a statement does to the shared stack: `Guard g{mutex_}` acquires the mutex,
`~Guard` releases it, anything else is an access to `data_`. -/
inductive Action where
  | acquire
  | access (a : Access)
  | release
  deriving DecidableEq, Repr

/-- Where a caller is inside its call. `ready`: at `Guard g{mutex_}`. The `_locked`,
`_checked` and `_top` states are inside the guarded scope, in the order of the
statements of the member function. `unlocking`: the scope is being left (by `return` or
by the thrown exception) and `~Guard` is next. `done`: the call is over. -/
inductive Caller (Value : Type) where
  | ready (op : Op Value)
  | push_locked (new_val : Value)
  | pop_locked
  | pop_checked
  | pop_top (pointer : SharedPointer Value)
  | pop_dest_locked (dest : Value)
  | pop_dest_checked (dest : Value)
  | pop_dest_top (dest : Value)
  | empty_locked
  | copy_locked (this : ThreadsafeStack Value)
  | unlocking (r : Response Value)
  | done (r : Response Value)
  | undefined
  deriving DecidableEq

/-- The state right after `Guard g{mutex_}`; the copy constructor starts from
default-constructed members of the new stack. -/
def Op.enter {Value : Type} : Op Value → Caller Value
  | Op.push v => Caller.push_locked v
  | Op.pop => Caller.pop_locked
  | Op.pop_dest dest => Caller.pop_dest_locked dest
  | Op.empty => Caller.empty_locked
  | Op.copy => Caller.copy_locked ⟨[], Mutex.free⟩

/-- The next statement of a caller on the shared stack `s`: the action, the caller's new
state and the stack after it. `none`: the caller cannot move, it waits in
`mutex_.lock()`, or its call is over, or it has met undefined behaviour. -/
def Caller.step {Value : Type} :
    Caller Value → ThreadsafeStack Value →
      Option (Action × Caller Value × ThreadsafeStack Value)
  | Caller.ready op, s =>
    match s.mutex_.lock with
    | none => none
    | some g => some (Action.acquire, op.enter, { s with mutex_ := g })
  | Caller.push_locked v, s =>
    some (Action.access Access.push, Caller.unlocking Response.push_returned,
      { s with data_ := stack_push s.data_ v })
  | Caller.pop_locked, s =>
    match ThreadsafeStack.throw_exception_if_empty s.data_ with
    | Except.error e => some (Action.access Access.empty, Caller.unlocking (Response.pop_thrown e), s)
    | Except.ok () => some (Action.access Access.empty, Caller.pop_checked, s)
  | Caller.pop_checked, s =>
    match stack_top s.data_ with
    | none => some (Action.access Access.top, Caller.undefined, s)
    | some top => some (Action.access Access.top, Caller.pop_top (make_shared top), s)
  | Caller.pop_top pointer, s =>
    match stack_pop s.data_ with
    | none => some (Action.access Access.pop, Caller.undefined, s)
    | some data =>
      some (Action.access Access.pop, Caller.unlocking (Response.pop_returned pointer),
        { s with data_ := data })
  | Caller.pop_dest_locked dest, s =>
    match ThreadsafeStack.throw_exception_if_empty s.data_ with
    | Except.error e =>
      some (Action.access Access.empty, Caller.unlocking (Response.pop_dest_thrown e dest), s)
    | Except.ok () => some (Action.access Access.empty, Caller.pop_dest_checked dest, s)
  | Caller.pop_dest_checked _, s =>
    match stack_top s.data_ with
    | none => some (Action.access Access.top, Caller.undefined, s)
    | some top => some (Action.access Access.top, Caller.pop_dest_top top, s)
  | Caller.pop_dest_top dest, s =>
    match stack_pop s.data_ with
    | none => some (Action.access Access.pop, Caller.undefined, s)
    | some data =>
      some (Action.access Access.pop, Caller.unlocking (Response.pop_dest_returned dest),
        { s with data_ := data })
  | Caller.empty_locked, s =>
    some (Action.access Access.empty,
      Caller.unlocking (Response.empty_returned (stack_empty s.data_)), s)
  | Caller.copy_locked this, s =>
    some (Action.access Access.read,
      Caller.unlocking (Response.copy_returned { this with data_ := s.data_ }), s)
  | Caller.unlocking r, s =>
    some (Action.release, Caller.done r, { s with mutex_ := s.mutex_.unlock })
  | Caller.done _, _ => none
  | Caller.undefined, _ => none

/-- A caller alone on the stack, for at most `fuel` statements: each action it takes,
with the state of the mutex when it takes it, the caller's last state and the stack. -/
def Caller.solo {Value : Type} :
    Nat → Caller Value → ThreadsafeStack Value →
      List (Mutex × Action) × Caller Value × ThreadsafeStack Value
  | 0, t, s => ([], t, s)
  | fuel + 1, t, s =>
    match t.step s with
    | none => ([], t, s)
    | some (a, t1, s1) =>
      let r := Caller.solo fuel t1 s1
      ((s.mutex_, a) :: r.1, r.2)

/-- The accesses to `data_` the source makes in a call on a stack holding `data`. -/
def Op.accesses {Value : Type} (op : Op Value) (data : List Value) : List Access :=
  match op with
  | Op.push _ => [Access.push]
  | Op.pop => if stack_empty data then [Access.empty] else [Access.empty, Access.top, Access.pop]
  | Op.pop_dest _ =>
    if stack_empty data then [Access.empty] else [Access.empty, Access.top, Access.pop]
  | Op.empty => [Access.empty]
  | Op.copy => [Access.read]

/-! ## The copy constructor on addresses

`other` is a reference: it may refer to the very stack under construction. -/

/-- The stacks a constructor call can reach, by address. -/
abbrev Store (Value : Type) : Type := Nat → ThreadsafeStack Value

/-- The store with the stack at address `a` replaced. -/
def Store.write {Value : Type} (st : Store Value) (a : Nat) (s : ThreadsafeStack Value) :
    Store Value :=
  fun b => if b = a then s else st b

/-- Before the body of a constructor runs, the members of the new stack are
default-constructed: `data_` empty, `mutex_` free. -/
def ThreadsafeStack.init_members {Value : Type} (st : Store Value) (this : Nat) : Store Value :=
  st.write this ⟨[], Mutex.free⟩

/-- The body of the copy constructor, `Guard g{other.mutex_}; data_ = other.data_;`, for
the stack at address `this` and the argument at address `other`. It gives the mutexes
acquired (the address of the stack, and the state the mutex was found in) and the store
left behind; `none` when it waits in `lock()`. -/
def ThreadsafeStack.copy_body {Value : Type} (st : Store Value) (this other : Nat) :
    Option (List (Nat × Mutex) × Store Value) :=
  match (st other).mutex_.lock with
  | none => none
  | some g =>
    let st1 := st.write other { st other with mutex_ := g }
    let st2 := st1.write this { st1 this with data_ := (st1 other).data_ }
    let st3 := st2.write other { st2 other with mutex_ := (st2 other).mutex_.unlock }
    some ([(other, (st other).mutex_)], st3)

/-- The copy constructor `ThreadsafeStack(const ThreadsafeStack& other)` constructing the
stack at address `this`: member initialisation, then the body. -/
def ThreadsafeStack.copy_at {Value : Type} (st : Store Value) (this other : Nat) :
    Option (List (Nat × Mutex) × Store Value) :=
  ThreadsafeStack.copy_body (ThreadsafeStack.init_members st this) this other

/-! ## Threads on one stack

Every thread makes one call on the same stack. A schedule names, statement by
statement, the thread that runs next. -/

/-- The stack and the threads calling it, thread `i` being `callers[i]`. -/
structure System (Value : Type) where
  stack : ThreadsafeStack Value
  callers : List (Caller Value)

/-- The start: the stack holds `data`, its mutex is free, and thread `i` is about to
call `ops[i]`. -/
def System.start {Value : Type} (ops : List (Op Value)) (data : List Value) : System Value :=
  ⟨⟨data, Mutex.free⟩, ops.map Caller.ready⟩

/-- Thread `i` executes its next statement; `none` when there is no such thread or it
cannot move. -/
def System.step {Value : Type} (sys : System Value) (i : Nat) :
    Option (Action × System Value) :=
  match sys.callers[i]? with
  | none => none
  | some t =>
    match t.step sys.stack with
    | none => none
    | some (a, t1, s1) => some (a, ⟨s1, sys.callers.set i t1⟩)

/-- Run a schedule. A scheduled thread that cannot move leaves everything as it is. The
result is the list of the moves made (thread and action) and the system reached. -/
def System.exec {Value : Type} (sys : System Value) :
    List Nat → List (Nat × Action) × System Value
  | [] => ([], sys)
  | i :: rest =>
    match sys.step i with
    | none => sys.exec rest
    | some (a, sys1) =>
      let r := sys1.exec rest
      ((i, a) :: r.1, r.2)

/-- The threads that acquired the mutex, in the order in which they did. -/
def acquisitions (log : List (Nat × Action)) : List Nat :=
  (log.filter (fun m => decide (m.2 = Action.acquire))).map Prod.fst

/-- The calls of the threads listed in `order` made one after the other, each as a
whole, on the stack `s`: the response each thread gets, and the stack left. -/
def sequential {Value : Type} (ops : List (Op Value)) (s : ThreadsafeStack Value) :
    List Nat → Option (List (Nat × Response Value) × ThreadsafeStack Value)
  | [] => some ([], s)
  | i :: order =>
    match ops[i]? with
    | none => none
    | some op =>
      match op.call s with
      | none => none
      | some (r, s1) => (sequential ops s1 order).map (fun x => ((i, r) :: x.1, x.2))

/-- A caller alone on the stack reaches the end of its call in exactly `n` statements:
its response and the stack it leaves. -/
def Caller.finish {Value : Type} :
    Nat → Caller Value → ThreadsafeStack Value →
      Option (Response Value × ThreadsafeStack Value)
  | 0, Caller.done r, s => some (r, s)
  | 0, _, _ => none
  | n + 1, t, s =>
    match t.step s with
    | none => none
    | some (_, t1, s1) => Caller.finish n t1 s1

/-- The call of this caller is over. -/
def Caller.is_done {Value : Type} : Caller Value → Bool
  | Caller.done _ => true
  | _ => false

/-- Every call is over. -/
def System.all_done {Value : Type} (sys : System Value) : Bool :=
  sys.callers.all Caller.is_done

/-- The threads outside `hist` have not started and the threads of `rs` are done with
the response listed there. -/
def Settled {Value : Type} (ops : List (Op Value)) (hist : List Nat)
    (rs : List (Nat × Response Value)) (callers : List (Caller Value)) : Prop :=
  (∀ i op, ops[i]? = some op → i ∉ hist → callers[i]? = some (Caller.ready op)) ∧
  (∀ p ∈ rs, callers[p.1]? = some (Caller.done p.2))

/-- The system is what the calls of the threads of `hist`, made one after the other in
that order on the stack holding `data`, lead to. Either the mutex is free: these calls
are all over, each thread with the response of the sequential run, the stack is the one
that run leaves, and no other thread has started. Or the mutex is held by the last
thread `j` of `hist`: the calls before it are over in that way, no thread outside `hist`
has started, and `j`, running alone from here, ends its call with the response and the
stack of its call made as a whole after the others. -/
def Linearized {Value : Type} (ops : List (Op Value)) (data : List Value)
    (hist : List Nat) (sys : System Value) : Prop :=
  sys.callers.length = ops.length ∧ hist.Nodup ∧
  ((sys.stack.mutex_ = Mutex.free ∧
      ∃ rs, sequential ops ⟨data, Mutex.free⟩ hist = some (rs, sys.stack) ∧
        Settled ops hist rs sys.callers) ∨
    (sys.stack.mutex_ = Mutex.held ∧
      ∃ h j op rs s t n r s1, hist = h ++ [j] ∧ ops[j]? = some op ∧
        sequential ops ⟨data, Mutex.free⟩ h = some (rs, s) ∧
        Settled ops hist rs sys.callers ∧
        sys.callers[j]? = some t ∧ Caller.finish n t sys.stack = some (r, s1) ∧
        op.call s = some (r, s1)))

/-- The threads of `ops` run by the schedule from the start on a stack holding `data`:
the moves made and the system reached. -/
def System.run {Value : Type} (ops : List (Op Value)) (data : List Value)
    (sched : List Nat) : List (Nat × Action) × System Value :=
  (System.start ops data).exec sched

/-- A bound on the number of statements a caller still has to execute. -/
def Caller.remaining {Value : Type} : Caller Value → Nat
  | Caller.ready _ => 5
  | Caller.push_locked _ => 2
  | Caller.pop_locked => 4
  | Caller.pop_checked => 3
  | Caller.pop_top _ => 2
  | Caller.pop_dest_locked _ => 4
  | Caller.pop_dest_checked _ => 3
  | Caller.pop_dest_top _ => 2
  | Caller.empty_locked => 2
  | Caller.copy_locked _ => 2
  | Caller.unlocking _ => 1
  | Caller.done _ => 0
  | Caller.undefined => 0

/-- A bound on the number of statements the threads of a system still have to execute. -/
def System.remaining {Value : Type} (sys : System Value) : Nat :=
  (sys.callers.map Caller.remaining).sum

end para

namespace concur

/-! ## `ThreadGuard` -/

/-- A `std::thread` handle. `joinable`: it stands for a thread (it is neither joined nor
detached). `of_caller`: that thread is the one that makes the calls on the handle, so
that `join()` would be a self-join. `finishes`: the function of that thread returns at
some point. The last two only matter while the handle is joinable. -/
structure Thread where
  joinable : Bool
  of_caller : Bool
  finishes : Bool
  deriving DecidableEq, Repr

/-- What a run of the guard can change: the handle `t_` refers to, the number of
`join()` calls on it that returned, and the lines written to `std::cout`. -/
structure World where
  t : Thread
  joins : Nat
  cout : List String
  deriving DecidableEq, Repr

/-- The `std::system_error` conditions of `std::thread::join()`: `invalid_argument` on a
handle that is not joinable, `resource_deadlock_would_occur` on a self-join. -/
inductive SystemError where
  | invalid_argument
  | resource_deadlock_would_occur
  deriving DecidableEq, Repr

/-- How a call ends: it returns; or a `std::system_error` leaves it, the world being as
given; or it never returns, the caller waiting for ever. -/
inductive Ended (α : Type) where
  | returned (a : α)
  | thrown (e : SystemError) (w : World)
  | never
  deriving DecidableEq, Repr

/-- What follows a call runs only when the call returns. -/
def Ended.bind {α β : Type} (x : Ended α) (f : α → Ended β) : Ended β :=
  match x with
  | Ended.returned a => f a
  | Ended.thrown e w => Ended.thrown e w
  | Ended.never => Ended.never

/-- `std::thread::joinable()`. -/
def joinable (w : World) : Bool := w.t.joinable

/-- `std::thread::join()`. On a handle that is not joinable it throws
`invalid_argument`; on the handle of the calling thread itself it throws
`resource_deadlock_would_occur`; either way the handle stays as it is. Otherwise it
waits for the thread to finish: it returns with the handle not joinable when the thread
finishes, and never returns when the thread does not. -/
def join (w : World) : Ended World :=
  if w.t.joinable then
    if w.t.of_caller then
      Ended.thrown SystemError.resource_deadlock_would_occur w
    else if w.t.finishes then
      Ended.returned { w with t := { w.t with joinable := false }, joins := w.joins + 1 }
    else
      Ended.never
  else
    Ended.thrown SystemError.invalid_argument w

/-- `~ThreadGuard()`: `if(t_.joinable()) t_.join();` followed by the line
`t_ has been join().` on `std::cout`. When an exception leaves `join()` it leaves the
destructor as well and the line is not written (out of a destructor, the exception ends
the program in `std::terminate`); when `join()` never returns, neither does the
destructor. -/
def ThreadGuard.destroy (w : World) : Ended World :=
  (if joinable w then join w else Ended.returned w).bind fun w1 =>
    Ended.returned { w1 with cout := w1.cout ++ ["t_ has been join()."] }

/-- How control leaves the body of a scope. -/
inductive Exit where
  | normal
  | exception
  deriving DecidableEq, Repr

/-- The scope `{ concur::ThreadGuard guard{t}; body(); }` of `main`: the constructor only
stores the reference, the body (which has no access to `t`) writes to `std::cout` and
leaves normally or by an exception, and `~ThreadGuard` runs on either exit. The scope
ends, with the exit of the body, when the destructor returns. -/
def guarded_scope (body : List String → Exit × List String) (w : World) :
    Ended (Exit × World) :=
  let r := body w.cout
  (ThreadGuard.destroy { w with cout := r.2 }).bind fun w1 => Ended.returned (r.1, w1)

/-- The first statement of `~ThreadGuard()`: `if(t_.joinable()) t_.join();`. -/
def ThreadGuard.join_if_joinable (w : World) : Ended World :=
  if joinable w then join w else Ended.returned w

/-- The caller contract of the guard: the guarded handle is not the handle of the thread
that destroys the guard, and the guarded thread finishes. -/
def contract (w : World) : Prop :=
  w.t.of_caller = false ∧ w.t.finishes = true

end concur

/-! # Properties -/

namespace para

namespace ThreadsafeStack

variable {Value : Type}

theorem pop_nil : pop (⟨[], Mutex.free⟩ : ThreadsafeStack Value)
    = Outcome.thrown EmptyStackException.default ⟨[], Mutex.free⟩ := rfl

theorem pop_concat (c : List Value) (v : Value) :
    pop ⟨c ++ [v], Mutex.free⟩ = Outcome.returned (some v) ⟨c, Mutex.free⟩ := by
  simp [pop, Mutex.lock, Mutex.unlock, throw_exception_if_empty, stack_empty, stack_top,
    stack_pop, make_shared]

theorem pop_dest_nil (dest : Value) : pop_dest (⟨[], Mutex.free⟩ : ThreadsafeStack Value) dest
    = Outcome.thrown EmptyStackException.default (⟨[], Mutex.free⟩, dest) := rfl

theorem pop_dest_concat (c : List Value) (v dest : Value) :
    pop_dest ⟨c ++ [v], Mutex.free⟩ dest = Outcome.returned () (⟨c, Mutex.free⟩, v) := by
  simp [pop_dest, Mutex.lock, Mutex.unlock, throw_exception_if_empty, stack_empty, stack_top,
    stack_pop]

theorem push_free (c : List Value) (v : Value) :
    push ⟨c, Mutex.free⟩ v = Outcome.returned () ⟨c ++ [v], Mutex.free⟩ := rfl

theorem empty_free (c : List Value) :
    empty ⟨c, Mutex.free⟩ = Outcome.returned c.isEmpty ⟨c, Mutex.free⟩ := rfl

theorem copy_free (c : List Value) :
    copy ⟨c, Mutex.free⟩ = Outcome.returned ⟨c, Mutex.free⟩ ⟨c, Mutex.free⟩ := rfl

theorem nil_or_back (d : List Value) : d = [] ∨ ∃ c v, d = c ++ [v] := by
  rcases List.eq_nil_or_concat d with hd | ⟨c, v, hd⟩
  · exact Or.inl hd
  · exact Or.inr ⟨c, v, by simpa using hd⟩

theorem free_eq (s : ThreadsafeStack Value) (h : s.mutex_ = Mutex.free) :
    s = ⟨s.data_, Mutex.free⟩ := by
  cases s; simp_all

theorem pushes_free (vs c : List Value) :
    pushes ⟨c, Mutex.free⟩ vs = some ⟨c ++ vs, Mutex.free⟩ := by
  induction vs generalizing c with
  | nil => simp [pushes]
  | cons v vs ih => simp [pushes, push_free, ih]

theorem pops_free (d c : List Value) :
    pops ⟨c ++ d, Mutex.free⟩ d.length
      = some (d.reverse.map make_shared, ⟨c, Mutex.free⟩) := by
  induction d using List.reverseRecOn with
  | nil => simp [pops]
  | append_singleton d v ih =>
    rw [← List.append_assoc, List.length_append, List.length_singleton, pops, pop_concat]
    simp only [ih]
    simp [make_shared]

theorem drain_free (d : List Value) :
    drain ⟨d, Mutex.free⟩ (d.length + 1)
      = some (d.reverse.map make_shared, ⟨[], Mutex.free⟩) := by
  induction d using List.reverseRecOn with
  | nil => simp [drain, pop_nil]
  | append_singleton d v ih =>
    rw [List.length_append, List.length_singleton, drain, pop_concat]
    simp only [ih]
    simp [make_shared]

/-- C1 (LIFO order): pushing `v1, ..., vn` in that order onto a newly constructed stack
succeeds; the next `n` calls of `pop()` all return, giving pointers to `vn, ..., v1` in
that order; and the call of `pop()` after them throws the default
`EmptyStackException`. -/
theorem lifo_order (vs : List Value) :
    ∃ s1, pushes (new : ThreadsafeStack Value) vs = some s1 ∧
      ∃ s2, pops s1 vs.length = some (vs.reverse.map make_shared, s2) ∧
        ∃ s3, pop s2 = Outcome.thrown EmptyStackException.default s3 := by
  refine ⟨⟨vs, Mutex.free⟩, ?_, ⟨[], Mutex.free⟩, ?_, ⟨[], Mutex.free⟩, pop_nil⟩
  · simpa using pushes_free vs ([] : List Value)
  · simpa using pops_free vs ([] : List Value)

/-- The scenario of the specification: `push(1); push(2); push(3)`, then `pop()` gives
3, 2, 1 and a fourth `pop()` throws. -/
theorem lifo_order_scenario :
    pushes (new : ThreadsafeStack Nat) [1, 2, 3] = some ⟨[1, 2, 3], Mutex.free⟩ ∧
    pops (⟨[1, 2, 3], Mutex.free⟩ : ThreadsafeStack Nat) 3
      = some ([some 3, some 2, some 1], new) ∧
    pop (new : ThreadsafeStack Nat) = Outcome.thrown EmptyStackException.default new := by
  refine ⟨rfl, rfl, rfl⟩

/-- C2: on a stack whose sequence is empty, `pop()` and `pop(dest)` throw the
`EmptyStackException` when the mutex is free; whatever the mutex, neither returns, and
each waits exactly when the stack's own mutex is held. -/
theorem pop_empty_fails (s : ThreadsafeStack Value) (dest : Value) (hs : s.data_ = []) :
    (s.mutex_ = Mutex.free →
      pop s = Outcome.thrown EmptyStackException.default s ∧
      pop_dest s dest = Outcome.thrown EmptyStackException.default (s, dest)) ∧
    (∀ p s1, pop s ≠ Outcome.returned p s1) ∧
    (∀ s1, pop_dest s dest ≠ Outcome.returned () s1) ∧
    (pop s = Outcome.blocked ↔ s.mutex_ = Mutex.held) ∧
    (pop_dest s dest = Outcome.blocked ↔ s.mutex_ = Mutex.held) := by
  obtain ⟨d, m⟩ := s
  cases hs
  cases m <;> simp [pop, pop_dest, Mutex.lock, Mutex.unlock, throw_exception_if_empty,
    stack_empty]

theorem pop_empty_fails_witness :
    (new : ThreadsafeStack Nat).data_ = [] ∧
    pop (new : ThreadsafeStack Nat) = Outcome.thrown EmptyStackException.default new ∧
    pop_dest (new : ThreadsafeStack Nat) 7
      = Outcome.thrown EmptyStackException.default (new, 7) :=
  ⟨rfl, (pop_empty_fails (new : ThreadsafeStack Nat) 7 rfl).1 rfl⟩

/-- C3: with the mutex free, `empty()` returns and leaves the stack as it was; it
returns `true` exactly when the `pop()` that follows throws `EmptyStackException`, and
`false` exactly when that `pop()` returns. -/
theorem empty_iff_pop_fails (s : ThreadsafeStack Value) (h : s.mutex_ = Mutex.free) :
    ∃ b s1, empty s = Outcome.returned b s1 ∧ s1 = s ∧
      (b = true ↔ ∃ e s2, pop s1 = Outcome.thrown e s2) ∧
      (b = false ↔ ∃ p s2, pop s1 = Outcome.returned p s2) := by
  rw [free_eq s h]
  refine ⟨s.data_.isEmpty, _, empty_free _, rfl, ?_⟩
  rcases nil_or_back s.data_ with hd | ⟨c, v, hd⟩
  · rw [hd]; simp [pop_nil]
  · rw [hd]; simp [pop_concat]

theorem empty_iff_pop_fails_witness :
    ∃ b s1, empty (⟨[4, 5], Mutex.free⟩ : ThreadsafeStack Nat) = Outcome.returned b s1 ∧
      s1 = ⟨[4, 5], Mutex.free⟩ ∧
      (b = true ↔ ∃ e s2, pop s1 = Outcome.thrown e s2) ∧
      (b = false ↔ ∃ p s2, pop s1 = Outcome.returned p s2) :=
  empty_iff_pop_fails ⟨[4, 5], Mutex.free⟩ rfl

/-- C4 (push/pop round trip): with the mutex free, `push(v)` returns whatever the
sequence is, and the `pop()` that follows returns a pointer to `v` and leaves the stack
as it was before the push, so the previous top is the top again. -/
theorem push_pop_round_trip (s : ThreadsafeStack Value) (v : Value)
    (h : s.mutex_ = Mutex.free) :
    ∃ s1, push s v = Outcome.returned () s1 ∧
      ∃ s2, pop s1 = Outcome.returned (make_shared v) s2 ∧
        s2.data_ = s.data_ ∧ stack_top s2.data_ = stack_top s.data_ ∧ s2 = s := by
  rw [free_eq s h]
  exact ⟨_, push_free _ _, _, pop_concat _ _, rfl, rfl, rfl⟩

theorem push_pop_round_trip_witness :
    ∃ s1, push (⟨[1, 2], Mutex.free⟩ : ThreadsafeStack Nat) 9 = Outcome.returned () s1 ∧
      ∃ s2, pop s1 = Outcome.returned (make_shared 9) s2 ∧
        s2.data_ = [1, 2] ∧ stack_top s2.data_ = stack_top [1, 2] ∧
        s2 = ⟨[1, 2], Mutex.free⟩ :=
  push_pop_round_trip ⟨[1, 2], Mutex.free⟩ 9 rfl

/-- C5 (the two `pop` overloads agree): with the mutex free, `pop()` throws exactly when
`pop(dest)` throws, and then both throw the default `EmptyStackException` and leave the
stack as it was; otherwise both return, the pointer returned by `pop()` points to the
value `pop(dest)` writes into `dest`, and both leave the sequence without its top. -/
theorem pop_overloads_agree (s : ThreadsafeStack Value) (dest : Value)
    (h : s.mutex_ = Mutex.free) :
    ((∃ e s1, pop s = Outcome.thrown e s1) ↔ (∃ e r, pop_dest s dest = Outcome.thrown e r)) ∧
    ((pop s = Outcome.thrown EmptyStackException.default s ∧
        pop_dest s dest = Outcome.thrown EmptyStackException.default (s, dest)) ∨
      (∃ v s1, pop s = Outcome.returned (make_shared v) s1 ∧
        pop_dest s dest = Outcome.returned () (s1, v) ∧
        s1.data_ = s.data_.dropLast ∧ stack_top s.data_ = some v)) := by
  rw [free_eq s h]
  rcases nil_or_back s.data_ with hd | ⟨c, v, hd⟩
  · rw [hd]
    refine ⟨?_, Or.inl ⟨pop_nil, pop_dest_nil dest⟩⟩
    simp [pop_nil, pop_dest_nil]
  · rw [hd]
    refine ⟨?_, Or.inr ⟨v, ⟨c, Mutex.free⟩, pop_concat c v, pop_dest_concat c v dest, ?_, ?_⟩⟩
    · simp [pop_concat, pop_dest_concat]
    · simp
    · simp [stack_top]

theorem pop_overloads_agree_witness :
    ((∃ e s1, pop (⟨[1, 2], Mutex.free⟩ : ThreadsafeStack Nat) = Outcome.thrown e s1) ↔
      (∃ e r, pop_dest (⟨[1, 2], Mutex.free⟩ : ThreadsafeStack Nat) 0
        = Outcome.thrown e r)) ∧
    ((pop (⟨[1, 2], Mutex.free⟩ : ThreadsafeStack Nat)
          = Outcome.thrown EmptyStackException.default ⟨[1, 2], Mutex.free⟩ ∧
        pop_dest (⟨[1, 2], Mutex.free⟩ : ThreadsafeStack Nat) 0
          = Outcome.thrown EmptyStackException.default (⟨[1, 2], Mutex.free⟩, 0)) ∨
      (∃ v s1, pop (⟨[1, 2], Mutex.free⟩ : ThreadsafeStack Nat)
          = Outcome.returned (make_shared v) s1 ∧
        pop_dest (⟨[1, 2], Mutex.free⟩ : ThreadsafeStack Nat) 0
          = Outcome.returned () (s1, v) ∧
        s1.data_ = [1, 2].dropLast ∧ stack_top [1, 2] = some v)) :=
  pop_overloads_agree ⟨[1, 2], Mutex.free⟩ 0 rfl

/-- C6 (copy construction snapshots the source): with the source's mutex free, the copy
constructor returns, leaves the source as it was, and the new stack holds the same
sequence as the source: draining either by `pop()` gives the same pointers in the same
order (the whole sequence from the top down, once the fuel exceeds its length), and
`empty()` returns the same on both. -/
theorem copy_snapshot (s : ThreadsafeStack Value) (h : s.mutex_ = Mutex.free) :
    ∃ c s1, copy s = Outcome.returned c s1 ∧ s1 = s ∧ c.data_ = s.data_ ∧
      (∀ fuel, (drain c fuel).map Prod.fst = (drain s fuel).map Prod.fst) ∧
      (drain c (s.data_.length + 1)).map Prod.fst
        = some (s.data_.reverse.map make_shared) ∧
      ∃ b, empty c = Outcome.returned b c ∧ empty s = Outcome.returned b s := by
  rw [free_eq s h]
  refine ⟨_, _, copy_free _, rfl, rfl, fun _ => rfl, ?_, _, empty_free _, empty_free _⟩
  simp [drain_free]

theorem copy_snapshot_witness :
    ∃ c s1, copy (⟨[1, 2, 3], Mutex.free⟩ : ThreadsafeStack Nat) = Outcome.returned c s1 ∧
      s1 = ⟨[1, 2, 3], Mutex.free⟩ ∧ c.data_ = [1, 2, 3] ∧
      (∀ fuel, (drain c fuel).map Prod.fst
        = (drain (⟨[1, 2, 3], Mutex.free⟩ : ThreadsafeStack Nat) fuel).map Prod.fst) ∧
      (drain c ([1, 2, 3].length + 1)).map Prod.fst
        = some ([1, 2, 3].reverse.map make_shared) ∧
      ∃ b, empty c = Outcome.returned b c ∧
        empty (⟨[1, 2, 3], Mutex.free⟩ : ThreadsafeStack Nat)
          = Outcome.returned b ⟨[1, 2, 3], Mutex.free⟩ :=
  copy_snapshot ⟨[1, 2, 3], Mutex.free⟩ rfl

theorem run_invariant (cs : List (Call Value)) (r : Run Value)
    (hm : r.stack.mutex_ = Mutex.free) (hn : r.stack.data_.length + r.popped = r.pushed) :
    ∃ r1, run r cs = some r1 ∧ r1.stack.mutex_ = Mutex.free ∧
      r1.stack.data_.length + r1.popped = r1.pushed ∧
      r1.pushed = r.pushed + (cs.filter Call.is_push).length := by
  induction cs generalizing r with
  | nil => exact ⟨r, rfl, hm, hn, by simp⟩
  | cons c cs ih =>
    obtain ⟨⟨d, m⟩, np, ns⟩ := r
    simp only at hm hn
    subst hm
    cases c with
    | push v =>
      obtain ⟨r1, h1, h2, h3, h4⟩ := ih ⟨⟨d ++ [v], Mutex.free⟩, np + 1, ns⟩ rfl
        (by simp only [List.length_append, List.length_singleton]; omega)
      refine ⟨r1, by simpa [run, push_free] using h1, h2, h3, ?_⟩
      simp only [List.filter_cons, Call.is_push, if_true, List.length_cons] at h4 ⊢
      omega
    | pop =>
      rcases nil_or_back d with hd | ⟨c, v, hd⟩
      · subst hd
        obtain ⟨r1, h1, h2, h3, h4⟩ := ih ⟨⟨[], Mutex.free⟩, np, ns⟩ rfl hn
        exact ⟨r1, by simpa [run, pop_nil] using h1, h2, h3, by simpa [Call.is_push] using h4⟩
      · subst hd
        obtain ⟨r1, h1, h2, h3, h4⟩ := ih ⟨⟨c, Mutex.free⟩, np, ns + 1⟩ rfl
          (by simp only [List.length_append, List.length_singleton] at hn ⊢; omega)
        exact ⟨r1, by simpa [run, pop_concat] using h1, h2, h3,
          by simpa [Call.is_push] using h4⟩
    | pop_dest dest =>
      rcases nil_or_back d with hd | ⟨c, v, hd⟩
      · subst hd
        obtain ⟨r1, h1, h2, h3, h4⟩ := ih ⟨⟨[], Mutex.free⟩, np, ns⟩ rfl hn
        exact ⟨r1, by simpa [run, pop_dest_nil] using h1, h2, h3,
          by simpa [Call.is_push] using h4⟩
      · subst hd
        obtain ⟨r1, h1, h2, h3, h4⟩ := ih ⟨⟨c, Mutex.free⟩, np, ns + 1⟩ rfl
          (by simp only [List.length_append, List.length_singleton] at hn ⊢; omega)
        exact ⟨r1, by simpa [run, pop_dest_concat] using h1, h2, h3,
          by simpa [Call.is_push] using h4⟩

/-- C10: after any finite sequence of `push`, `pop()` and `pop(dest)` calls on a newly
constructed stack (the run completes, and it counts every `push` call of the sequence),
`empty()` returns `true` exactly when the number of `push` calls equals the number of
`pop` calls that returned; a newly constructed stack reports `true`, and `empty()`
returns `false` right after any further `push`. -/
theorem empty_iff_counts (cs : List (Call Value)) :
    ∃ r, run ⟨(new : ThreadsafeStack Value), 0, 0⟩ cs = some r ∧
      r.pushed = (cs.filter Call.is_push).length ∧
      (∃ b, empty r.stack = Outcome.returned b r.stack ∧
        (b = true ↔ r.pushed = r.popped) ∧ b = stack_empty r.stack.data_) ∧
      empty (new : ThreadsafeStack Value) = Outcome.returned true new ∧
      ∀ v, ∃ s1, push r.stack v = Outcome.returned () s1 ∧
        empty s1 = Outcome.returned false s1 := by
  obtain ⟨r, h1, h2, h3, h4⟩ := run_invariant cs ⟨(new : ThreadsafeStack Value), 0, 0⟩ rfl rfl
  refine ⟨r, h1, by simpa using h4, ?_, rfl, ?_⟩
  · rw [free_eq r.stack h2]
    refine ⟨_, empty_free _, ?_, rfl⟩
    rw [← h3]
    cases r.stack.data_ <;> simp
  · intro v
    rw [free_eq r.stack h2]
    exact ⟨_, push_free _ _, by simp [empty_free]⟩

/-- A run with a failing `pop()` in it: two pushes, three pops, one more push. -/
theorem empty_iff_counts_scenario :
    run ⟨(new : ThreadsafeStack Nat), 0, 0⟩
        [Call.push 1, Call.pop, Call.pop, Call.push 2, Call.pop_dest 0, Call.pop_dest 0,
          Call.push 3]
      = some ⟨⟨[3], Mutex.free⟩, 3, 2⟩ := rfl

/-- C11 (frame): `empty()` and copy construction leave the sequence of the stack they
are called on exactly as it was: whatever state they leave behind has the same
`data_`, and with the mutex free both return and leave the whole stack unchanged. -/
theorem empty_copy_frame (s : ThreadsafeStack Value) :
    (∀ b s1, empty s = Outcome.returned b s1 → s1.data_ = s.data_) ∧
    (∀ e s1, empty s ≠ Outcome.thrown e s1) ∧
    (∀ c s1, copy s = Outcome.returned c s1 → s1.data_ = s.data_) ∧
    (∀ e s1, copy s ≠ Outcome.thrown e s1) ∧
    (s.mutex_ = Mutex.free →
      (∃ b, empty s = Outcome.returned b s) ∧ (∃ c, copy s = Outcome.returned c s)) := by
  obtain ⟨d, m⟩ := s
  cases m
  · simp [empty_free, copy_free]
  · simp [empty, copy, Mutex.lock]

/-- The frame property on a stack of three elements. -/
theorem empty_copy_frame_scenario :
    empty (⟨[1, 2, 3], Mutex.free⟩ : ThreadsafeStack Nat)
      = Outcome.returned false ⟨[1, 2, 3], Mutex.free⟩ ∧
    copy (⟨[1, 2, 3], Mutex.free⟩ : ThreadsafeStack Nat)
      = Outcome.returned ⟨[1, 2, 3], Mutex.free⟩ ⟨[1, 2, 3], Mutex.free⟩ :=
  ⟨rfl, rfl⟩

/-- C16 (a failed pop is atomic): on an empty stack with the mutex free, `pop(dest)` and
`pop()` throw and leave the stack as it was, `dest` still holds the value it held, the
`empty()` that follows returns `true`, and a following `push` or `pop` behaves as on a
newly constructed stack. Whenever `pop(dest)` throws, on any stack, the sequence and
`dest` are the ones it started with. -/
theorem failed_pop_atomic (s : ThreadsafeStack Value) (d : Value)
    (hs : s.data_ = []) (hm : s.mutex_ = Mutex.free) :
    (∃ e, pop_dest s d = Outcome.thrown e (s, d)) ∧
    (∃ e, pop s = Outcome.thrown e s) ∧
    (∀ (t : ThreadsafeStack Value) (x : Value) e r, pop_dest t x = Outcome.thrown e r →
      r.1.data_ = t.data_ ∧ r.2 = x) ∧
    (∀ (t : ThreadsafeStack Value) e t1, pop t = Outcome.thrown e t1 → t1.data_ = t.data_) ∧
    empty s = Outcome.returned true s ∧
    (∀ v, push s v = push new v) ∧ pop s = pop new ∧ (∀ x, pop_dest s x = pop_dest new x) := by
  have hs1 : s = ⟨[], Mutex.free⟩ := by rw [free_eq s hm, hs]
  subst hs1
  refine ⟨⟨_, pop_dest_nil d⟩, ⟨_, pop_nil⟩, ?_, ?_, rfl, fun _ => rfl, rfl, fun _ => rfl⟩
  · intro t x e r h
    obtain ⟨c, m⟩ := t
    cases m
    · rcases nil_or_back c with hc | ⟨c1, v, hc⟩
      · subst hc
        rw [pop_dest_nil] at h
        cases h
        exact ⟨rfl, rfl⟩
      · subst hc
        rw [pop_dest_concat] at h
        cases h
    · simp [pop_dest, Mutex.lock] at h
  · intro t e t1 h
    obtain ⟨c, m⟩ := t
    cases m
    · rcases nil_or_back c with hc | ⟨c1, v, hc⟩
      · subst hc
        rw [pop_nil] at h
        cases h
        rfl
      · subst hc
        rw [pop_concat] at h
        cases h
    · simp [pop, Mutex.lock] at h

theorem failed_pop_atomic_witness :
    (∃ e, pop_dest (⟨[], Mutex.free⟩ : ThreadsafeStack Nat) 7
      = Outcome.thrown e (⟨[], Mutex.free⟩, 7)) ∧
    (∃ e, pop (⟨[], Mutex.free⟩ : ThreadsafeStack Nat) = Outcome.thrown e ⟨[], Mutex.free⟩) :=
  ⟨(failed_pop_atomic (⟨[], Mutex.free⟩ : ThreadsafeStack Nat) 7 rfl rfl).1,
    (failed_pop_atomic (⟨[], Mutex.free⟩ : ThreadsafeStack Nat) 7 rfl rfl).2.1⟩

end ThreadsafeStack

/-! ## `EmptyStackException` -/

theorem CStr.ext_chars {p q : CStr} (h : p.chars = q.chars) : p = q := by
  cases p; cases q; cases h; rfl

theorem c_str_string_of_c_str (p : CStr) : c_str (string_of_c_str p) = p := by
  apply CStr.ext_chars
  simp only [c_str, string_of_c_str]
  rw [List.takeWhile_eq_self_iff]
  intro c hc
  simpa using p.nul_free c hc

theorem string_of_c_str_c_str (m : String) (h : NUL ∉ m.data) :
    string_of_c_str (c_str m) = m := by
  have : m.data.takeWhile (fun c => decide (c ≠ NUL)) = m.data := by
    rw [List.takeWhile_eq_self_iff]
    intro c hc
    have : c ≠ NUL := fun e => h (e ▸ hc)
    simpa using this
  show (⟨m.data.takeWhile (fun c => decide (c ≠ NUL))⟩ : String) = m
  rw [this]

/-- C9 as stated fails: an `EmptyStackException` constructed from the `std::string`
`a NUL b` (by the `const std::string&` or the `std::string&&` constructor) has `what()`
equal to `a`, not to the message supplied. -/
theorem what_of_string_truncates :
    string_of_c_str (EmptyStackException.of_string nulMessage).what = "a" ∧
    string_of_c_str (EmptyStackException.of_string nulMessage).what ≠ nulMessage ∧
    string_of_c_str (EmptyStackException.of_string_rvalue nulMessage).what ≠ nulMessage := by
  decide

/-- C9, amended: `what()` of a default-constructed `EmptyStackException` is exactly
`para exception : empty stack`; an exception constructed from a `const char*` message
has `what()` equal to that message; one constructed from a `std::string` `m` (by
reference or by rvalue) has `what()` equal to `m.c_str()`, the characters of `m` in
front of its first NUL, which is `m` itself whenever `m` holds no NUL. -/
theorem what_message :
    string_of_c_str EmptyStackException.default.what = "para exception : empty stack" ∧
    (∀ m : CStr, (EmptyStackException.of_c_str m).what = m) ∧
    (∀ m : String, (EmptyStackException.of_string m).what = c_str m ∧
      (EmptyStackException.of_string_rvalue m).what = c_str m) ∧
    (∀ m : String, NUL ∉ m.data →
      string_of_c_str (EmptyStackException.of_string m).what = m ∧
      string_of_c_str (EmptyStackException.of_string_rvalue m).what = m) := by
  refine ⟨?_, fun m => c_str_string_of_c_str m, fun m => ⟨c_str_string_of_c_str _,
    c_str_string_of_c_str _⟩, fun m hm => ?_⟩
  · show string_of_c_str (c_str (string_of_c_str defaultMessage)) = _
    rw [c_str_string_of_c_str]
    rfl
  · simp only [EmptyStackException.what, EmptyStackException.of_string,
      EmptyStackException.of_string_rvalue, c_str_string_of_c_str]
    exact ⟨string_of_c_str_c_str m hm, string_of_c_str_c_str m hm⟩

theorem default_what :
    string_of_c_str EmptyStackException.default.what = "para exception : empty stack" := by
  show string_of_c_str (c_str (string_of_c_str defaultMessage)) = _
  rw [c_str_string_of_c_str]
  rfl

theorem pop_thrown_default {Value : Type} (s : ThreadsafeStack Value) (e : EmptyStackException)
    (s1 : ThreadsafeStack Value) (h : s.pop = Outcome.thrown e s1) :
    e = EmptyStackException.default := by
  obtain ⟨c, m⟩ := s
  cases m
  · rcases ThreadsafeStack.nil_or_back c with hc | ⟨c1, v, hc⟩
    · subst hc
      rw [ThreadsafeStack.pop_nil] at h
      cases h
      rfl
    · subst hc
      rw [ThreadsafeStack.pop_concat] at h
      cases h
  · simp [ThreadsafeStack.pop, Mutex.lock] at h

theorem pop_dest_thrown_default {Value : Type} (s : ThreadsafeStack Value) (dest : Value)
    (e : EmptyStackException) (r : ThreadsafeStack Value × Value)
    (h : s.pop_dest dest = Outcome.thrown e r) :
    e = EmptyStackException.default := by
  obtain ⟨c, m⟩ := s
  cases m
  · rcases ThreadsafeStack.nil_or_back c with hc | ⟨c1, v, hc⟩
    · subst hc
      rw [ThreadsafeStack.pop_dest_nil] at h
      cases h
      rfl
    · subst hc
      rw [ThreadsafeStack.pop_dest_concat] at h
      cases h
  · simp [ThreadsafeStack.pop_dest, Mutex.lock] at h

/-- C17: whatever the element type and whatever state the stack is in (so after any
history of calls), an `EmptyStackException` thrown by `pop()` or by `pop(dest)` is the
default-constructed one, and its `what()` is exactly `para exception : empty stack`;
on a newly constructed stack both overloads do throw it. -/
theorem thrown_is_default {Value : Type} (s : ThreadsafeStack Value) :
    (∀ e s1, s.pop = Outcome.thrown e s1 →
      e = EmptyStackException.default ∧
      string_of_c_str e.what = "para exception : empty stack") ∧
    (∀ dest e r, s.pop_dest dest = Outcome.thrown e r →
      e = EmptyStackException.default ∧
      string_of_c_str e.what = "para exception : empty stack") ∧
    (ThreadsafeStack.new : ThreadsafeStack Value).pop
      = Outcome.thrown EmptyStackException.default ThreadsafeStack.new ∧
    (∀ dest, (ThreadsafeStack.new : ThreadsafeStack Value).pop_dest dest
      = Outcome.thrown EmptyStackException.default (ThreadsafeStack.new, dest)) := by
  refine ⟨fun e s1 h => ?_, fun dest e r h => ?_, rfl, fun _ => rfl⟩
  · have he := pop_thrown_default s e s1 h
    subst he
    exact ⟨rfl, default_what⟩
  · have he := pop_dest_thrown_default s dest e r h
    subst he
    exact ⟨rfl, default_what⟩

/-- The exception met after a history of calls: push, pop, then a failing pop. -/
theorem thrown_is_default_scenario :
    (ThreadsafeStack.run ⟨(ThreadsafeStack.new : ThreadsafeStack Nat), 0, 0⟩
      [ThreadsafeStack.Call.push 5, ThreadsafeStack.Call.pop]).map
        (fun r => r.stack.pop)
      = some (Outcome.thrown ⟨"para exception : empty stack"⟩ ThreadsafeStack.new) := by
  decide

/-! ## Statement by statement -/

theorem solo_nil {Value : Type} (op : Op Value) :
    ∃ r s1, Caller.solo 5 (Caller.ready op) (⟨[], Mutex.free⟩ : ThreadsafeStack Value)
        = ((Mutex.free, Action.acquire) ::
            (op.accesses ([] : List Value)).map (fun a => (Mutex.held, Action.access a))
            ++ [(Mutex.held, Action.release)], Caller.done r, s1) ∧
      s1.mutex_ = Mutex.free ∧ op.call ⟨[], Mutex.free⟩ = some (r, s1) := by
  cases op <;> exact ⟨_, _, rfl, rfl, rfl⟩

theorem solo_concat {Value : Type} (op : Op Value) (c : List Value) (v : Value) :
    ∃ r s1, Caller.solo 5 (Caller.ready op) (⟨c ++ [v], Mutex.free⟩ : ThreadsafeStack Value)
        = ((Mutex.free, Action.acquire) ::
            (op.accesses (c ++ [v])).map (fun a => (Mutex.held, Action.access a))
            ++ [(Mutex.held, Action.release)], Caller.done r, s1) ∧
      s1.mutex_ = Mutex.free ∧ op.call ⟨c ++ [v], Mutex.free⟩ = some (r, s1) := by
  cases op with
  | push x => exact ⟨_, _, rfl, rfl, rfl⟩
  | pop =>
    refine ⟨Response.pop_returned (some v), ⟨c, Mutex.free⟩, ?_, rfl, ?_⟩
    · simp [Caller.solo, Caller.step, Op.enter, Op.accesses, Mutex.lock, Mutex.unlock,
        ThreadsafeStack.throw_exception_if_empty, stack_empty, stack_top, stack_pop,
        make_shared]
    · simp [Op.call, ThreadsafeStack.pop_concat]
  | pop_dest dest =>
    refine ⟨Response.pop_dest_returned v, ⟨c, Mutex.free⟩, ?_, rfl, ?_⟩
    · simp [Caller.solo, Caller.step, Op.enter, Op.accesses, Mutex.lock, Mutex.unlock,
        ThreadsafeStack.throw_exception_if_empty, stack_empty, stack_top, stack_pop]
    · simp [Op.call, ThreadsafeStack.pop_dest_concat]
  | empty => exact ⟨_, _, rfl, rfl, rfl⟩
  | copy => exact ⟨_, _, rfl, rfl, rfl⟩

/-- C14 (lock discipline): each of `push`, `pop()`, `pop(dest)`, `empty()` and copy
construction, started with the mutex free, first acquires the mutex (found free), then
makes all its accesses to `data_` with the mutex held (for a `pop` of a stack that is
not empty: the emptiness check, `top()` and `pop()`, in one held interval), and releases
the mutex as its last action, also when `pop` leaves by `EmptyStackException`; the call
is then over, the mutex is free, and the response and the stack are those of the member
function taken as a whole. -/
theorem lock_discipline {Value : Type} (op : Op Value) (s : ThreadsafeStack Value)
    (h : s.mutex_ = Mutex.free) :
    ∃ r s1, Caller.solo 5 (Caller.ready op) s
        = ((Mutex.free, Action.acquire) ::
            (op.accesses s.data_).map (fun a => (Mutex.held, Action.access a))
            ++ [(Mutex.held, Action.release)], Caller.done r, s1) ∧
      s1.mutex_ = Mutex.free ∧ op.call s = some (r, s1) := by
  rw [ThreadsafeStack.free_eq s h]
  rcases ThreadsafeStack.nil_or_back s.data_ with hd | ⟨c, v, hd⟩
  · rw [hd]
    exact solo_nil op
  · rw [hd]
    exact solo_concat op c v

theorem lock_discipline_witness :
    ∃ r s1, Caller.solo 5 (Caller.ready Op.pop) (⟨[], Mutex.free⟩ : ThreadsafeStack Nat)
        = ((Mutex.free, Action.acquire) ::
            ((Op.pop : Op Nat).accesses []).map (fun a => (Mutex.held, Action.access a))
            ++ [(Mutex.held, Action.release)], Caller.done r, s1) ∧
      s1.mutex_ = Mutex.free ∧ (Op.pop : Op Nat).call ⟨[], Mutex.free⟩ = some (r, s1) :=
  lock_discipline Op.pop ⟨[], Mutex.free⟩ rfl

/-- The two exits of `pop()`: by the exception on an empty stack, by `return` on a
stack of two elements. -/
theorem lock_discipline_scenario :
    Caller.solo 5 (Caller.ready Op.pop) (⟨[], Mutex.free⟩ : ThreadsafeStack Nat)
      = ([(Mutex.free, Action.acquire), (Mutex.held, Action.access Access.empty),
          (Mutex.held, Action.release)],
        Caller.done (Response.pop_thrown EmptyStackException.default), ⟨[], Mutex.free⟩) ∧
    Caller.solo 5 (Caller.ready Op.pop) (⟨[1, 2], Mutex.free⟩ : ThreadsafeStack Nat)
      = ([(Mutex.free, Action.acquire), (Mutex.held, Action.access Access.empty),
          (Mutex.held, Action.access Access.top), (Mutex.held, Action.access Access.pop),
          (Mutex.held, Action.release)],
        Caller.done (Response.pop_returned (some 2)), ⟨[1], Mutex.free⟩) :=
  ⟨rfl, rfl⟩

/-! ## Copy construction and aliasing -/

theorem copy_body_free {Value : Type} (st : Store Value) (this other : Nat)
    (hm : (st other).mutex_ = Mutex.free) :
    ThreadsafeStack.copy_body st this other = some ([(other, Mutex.free)],
      (((st.write other { st other with mutex_ := Mutex.held }).write this
          { (st.write other { st other with mutex_ := Mutex.held }) this with
            data_ := ((st.write other { st other with mutex_ := Mutex.held }) other).data_ }
        ).write other ⟨(st other).data_, Mutex.free⟩)) := by
  simp only [ThreadsafeStack.copy_body, hm, Mutex.lock]
  congr 2
  funext b
  by_cases hb : b = other
  · simp [Store.write, hb, Mutex.unlock]
    by_cases ht : other = this
    · simp [ht]
    · simp [ht]
  · simp [Store.write, hb]

/-- C15: the copy constructor acquires one mutex, that of its argument, once, and finds
it free, whether the argument is another stack (whose mutex is free) or the very stack
under construction (whose mutex was default-constructed just before the body). It then
completes with that mutex released. On a self-copy the body leaves the sequence of the
stack as member initialisation made it (empty); on a copy of another stack it does what
`copy` does. No other stack is touched. -/
theorem copy_no_reentrant_lock {Value : Type} (st : Store Value) (this other : Nat)
    (h : other ≠ this → (st other).mutex_ = Mutex.free) :
    ∃ st1, ThreadsafeStack.copy_at st this other = some ([(other, Mutex.free)], st1) ∧
      (st1 other).mutex_ = Mutex.free ∧ (st1 this).mutex_ = Mutex.free ∧
      (other = this →
        (st1 this).data_ = (ThreadsafeStack.init_members st this this).data_ ∧
        st1 this = ThreadsafeStack.new) ∧
      (other ≠ this → (st other).copy = Outcome.returned (st1 this) (st1 other)) ∧
      (∀ a, a ≠ this → a ≠ other → st1 a = st a) := by
  have hm0 : (ThreadsafeStack.init_members st this other).mutex_ = Mutex.free := by
    by_cases ho : other = this
    · simp [ThreadsafeStack.init_members, Store.write, ho]
    · simpa [ThreadsafeStack.init_members, Store.write, ho] using h ho
  refine ⟨_, copy_body_free (ThreadsafeStack.init_members st this) this other hm0,
    ?_, ?_, ?_, ?_, ?_⟩
  · simp [Store.write]
  · by_cases ho : other = this
    · simp [Store.write, ho]
    · have ht : this ≠ other := fun e => ho e.symm
      simp [Store.write, ThreadsafeStack.init_members, ht]
  · intro ho
    subst ho
    simp [Store.write, ThreadsafeStack.init_members, ThreadsafeStack.new]
  · intro ho
    have ht : this ≠ other := fun e => ho e.symm
    have hs : st other = ⟨(st other).data_, Mutex.free⟩ := ThreadsafeStack.free_eq _ (h ho)
    rw [hs, ThreadsafeStack.copy_free]
    simp [Store.write, ThreadsafeStack.init_members, ht, ho]
  · intro a h1 h2
    simp [Store.write, ThreadsafeStack.init_members, h1, h2]

theorem copy_no_reentrant_lock_witness :
    ∃ st1, ThreadsafeStack.copy_at (fun _ => (⟨[1, 2], Mutex.held⟩ : ThreadsafeStack Nat)) 0 0
        = some ([(0, Mutex.free)], st1) ∧
      (st1 0).mutex_ = Mutex.free ∧ (st1 0).mutex_ = Mutex.free ∧
      (0 = 0 →
        (st1 0).data_ = (ThreadsafeStack.init_members
          (fun _ => (⟨[1, 2], Mutex.held⟩ : ThreadsafeStack Nat)) 0 0).data_ ∧
        st1 0 = ThreadsafeStack.new) ∧
      (0 ≠ 0 → (⟨[1, 2], Mutex.held⟩ : ThreadsafeStack Nat).copy
        = Outcome.returned (st1 0) (st1 0)) ∧
      (∀ a, a ≠ 0 → a ≠ 0 → st1 a = ⟨[1, 2], Mutex.held⟩) :=
  copy_no_reentrant_lock (fun _ => (⟨[1, 2], Mutex.held⟩ : ThreadsafeStack Nat)) 0 0
    (fun hne => absurd rfl hne)

/-- A copy of the stack at address 1 into address 0, and a self-copy at address 0. -/
theorem copy_at_scenario :
    (ThreadsafeStack.copy_at
        (fun a => if a = 1 then (⟨[1, 2], Mutex.free⟩ : ThreadsafeStack Nat)
          else ⟨[9], Mutex.held⟩) 0 1).map
      (fun r => (r.1, r.2 0, r.2 1))
      = some ([(1, Mutex.free)], ⟨[1, 2], Mutex.free⟩, ⟨[1, 2], Mutex.free⟩) ∧
    (ThreadsafeStack.copy_at
        (fun a => if a = 1 then (⟨[1, 2], Mutex.free⟩ : ThreadsafeStack Nat)
          else ⟨[9], Mutex.held⟩) 0 0).map
      (fun r => (r.1, r.2 0, r.2 1))
      = some ([(0, Mutex.free)], ⟨[], Mutex.free⟩, ⟨[1, 2], Mutex.free⟩) :=
  ⟨rfl, rfl⟩

/-! ## Threads on one stack -/

theorem call_held {Value : Type} (op : Op Value) (d : List Value) :
    op.call ⟨d, Mutex.held⟩ = none := by
  cases op <;> rfl

theorem call_free {Value : Type} (op : Op Value) (s : ThreadsafeStack Value)
    (r : Response Value) (s1 : ThreadsafeStack Value) (h : op.call s = some (r, s1)) :
    s.mutex_ = Mutex.free ∧ s1.mutex_ = Mutex.free := by
  obtain ⟨d, m⟩ := s
  cases m
  · refine ⟨rfl, ?_⟩
    rcases ThreadsafeStack.nil_or_back d with hd | ⟨c, v, hd⟩
    · subst hd
      obtain ⟨r0, s0, _, h2, h3⟩ := solo_nil op
      rw [h3] at h
      cases h
      exact h2
    · subst hd
      obtain ⟨r0, s0, _, h2, h3⟩ := solo_concat op c v
      rw [h3] at h
      cases h
      exact h2
  · rw [call_held] at h
    cases h

theorem sequential_free {Value : Type} (ops : List (Op Value)) (order : List Nat) :
    ∀ (s : ThreadsafeStack Value) rs s1, s.mutex_ = Mutex.free →
      sequential ops s order = some (rs, s1) → s1.mutex_ = Mutex.free := by
  induction order with
  | nil =>
    intro s rs s1 hs h
    simp only [sequential, Option.some.injEq, Prod.mk.injEq] at h
    rw [← h.2]
    exact hs
  | cons i order ih =>
    intro s rs s1 hs h
    simp only [sequential] at h
    split at h
    · cases h
    · split at h
      · cases h
      · rename_i op hj _ r s2 hc
        cases hq : sequential ops s2 order with
        | none => simp [hq] at h
        | some x =>
          obtain ⟨rs2, s3⟩ := x
          simp only [hq, Option.map_some', Option.some.injEq, Prod.mk.injEq] at h
          rw [← h.2]
          exact ih s2 rs2 s3 (call_free op s r s2 hc).2 hq

theorem sequential_fst {Value : Type} (ops : List (Op Value)) (order : List Nat) :
    ∀ (s : ThreadsafeStack Value) rs s1,
      sequential ops s order = some (rs, s1) → rs.map Prod.fst = order := by
  induction order with
  | nil =>
    intro s rs s1 h
    simp only [sequential, Option.some.injEq, Prod.mk.injEq] at h
    rw [← h.1]
    rfl
  | cons i order ih =>
    intro s rs s1 h
    simp only [sequential] at h
    split at h
    · cases h
    · split at h
      · cases h
      · rename_i op hj _ r s2 hc
        cases hq : sequential ops s2 order with
        | none => simp [hq] at h
        | some x =>
          obtain ⟨rs2, s3⟩ := x
          simp only [hq, Option.map_some', Option.some.injEq, Prod.mk.injEq] at h
          rw [← h.1, List.map_cons, ih s2 rs2 s3 hq]

theorem sequential_lt {Value : Type} (ops : List (Op Value)) (order : List Nat) :
    ∀ (s : ThreadsafeStack Value) rs s1,
      sequential ops s order = some (rs, s1) → ∀ i ∈ order, i < ops.length := by
  induction order with
  | nil =>
    intro s rs s1 _ i hi
    cases hi
  | cons j order ih =>
    intro s rs s1 h i hi
    simp only [sequential] at h
    split at h
    · cases h
    · rename_i op hj
      split at h
      · cases h
      · rename_i r s2 hc
        cases hq : sequential ops s2 order with
        | none => simp [hq] at h
        | some x =>
          rcases List.mem_cons.mp hi with hij | hi1
          · subst hij
            exact (List.getElem?_eq_some_iff.mp hj).1
          · exact ih s2 x.1 x.2 hq i hi1

theorem sequential_append {Value : Type} (ops : List (Op Value)) (h : List Nat) :
    ∀ (s : ThreadsafeStack Value) rs s1 j op r s2,
      sequential ops s h = some (rs, s1) → ops[j]? = some op →
      op.call s1 = some (r, s2) →
      sequential ops s (h ++ [j]) = some (rs ++ [(j, r)], s2) := by
  induction h with
  | nil =>
    intro s rs s1 j op r s2 hs hj hc
    simp only [sequential, Option.some.injEq, Prod.mk.injEq] at hs
    obtain ⟨h1, h2⟩ := hs
    subst h1 h2
    simp [sequential, hj, hc]
  | cons i h ih =>
    intro s rs s1 j op r s2 hs hj hc
    simp only [sequential] at hs
    split at hs
    · cases hs
    · rename_i opi hi
      split at hs
      · cases hs
      · rename_i ri si hci
        cases hq : sequential ops si h with
        | none => simp [hq] at hs
        | some x =>
          obtain ⟨rs2, s3⟩ := x
          simp only [hq, Option.map_some', Option.some.injEq, Prod.mk.injEq] at hs
          obtain ⟨h1, h2⟩ := hs
          subst h1 h2
          have := ih si rs2 s3 j op r s2 hq hj hc
          simp [sequential, hi, hci, this]

theorem enter_finish {Value : Type} (op : Op Value) (d : List Value) :
    ∃ n r s1, Caller.finish n op.enter ⟨d, Mutex.held⟩ = some (r, s1) ∧
      op.call ⟨d, Mutex.free⟩ = some (r, s1) := by
  rcases ThreadsafeStack.nil_or_back d with hd | ⟨c, v, hd⟩
  · subst hd
    cases op <;> exact ⟨2, _, _, rfl, rfl⟩
  · subst hd
    cases op with
    | push x => exact ⟨2, _, _, rfl, rfl⟩
    | pop =>
      refine ⟨4, Response.pop_returned (some v), ⟨c, Mutex.free⟩, ?_, ?_⟩
      · simp [Caller.finish, Caller.step, Op.enter, Mutex.unlock,
          ThreadsafeStack.throw_exception_if_empty, stack_empty, stack_top, stack_pop,
          make_shared]
      · simp [Op.call, ThreadsafeStack.pop_concat]
    | pop_dest dest =>
      refine ⟨4, Response.pop_dest_returned v, ⟨c, Mutex.free⟩, ?_, ?_⟩
      · simp [Caller.finish, Caller.step, Op.enter, Mutex.unlock,
          ThreadsafeStack.throw_exception_if_empty, stack_empty, stack_top, stack_pop]
      · simp [Op.call, ThreadsafeStack.pop_dest_concat]
    | empty => exact ⟨2, _, _, rfl, rfl⟩
    | copy => exact ⟨2, _, _, rfl, rfl⟩

theorem step_held {Value : Type} (t t1 : Caller Value) (s s1 : ThreadsafeStack Value)
    (a : Action) (h : t.step s = some (a, t1, s1)) (hm : s.mutex_ = Mutex.held) :
    s1.mutex_ = Mutex.held ∨
      (∃ r, t = Caller.unlocking r ∧ t1 = Caller.done r ∧ s1 = ⟨s.data_, Mutex.free⟩) := by
  obtain ⟨d, m⟩ := s
  simp only at hm
  subst hm
  cases t with
  | ready op => simp [Caller.step, Mutex.lock] at h
  | unlocking r =>
    simp only [Caller.step, Option.some.injEq, Prod.mk.injEq] at h
    exact Or.inr ⟨r, rfl, h.2.1.symm, h.2.2.symm⟩
  | done r => simp [Caller.step] at h
  | undefined => simp [Caller.step] at h
  | push_locked v =>
    simp only [Caller.step, Option.some.injEq, Prod.mk.injEq] at h
    exact Or.inl (by rw [← h.2.2])
  | empty_locked =>
    simp only [Caller.step, Option.some.injEq, Prod.mk.injEq] at h
    exact Or.inl (by rw [← h.2.2])
  | copy_locked this =>
    simp only [Caller.step, Option.some.injEq, Prod.mk.injEq] at h
    exact Or.inl (by rw [← h.2.2])
  | pop_locked =>
    simp only [Caller.step] at h
    split at h <;>
      (simp only [Option.some.injEq, Prod.mk.injEq] at h; exact Or.inl (by rw [← h.2.2]))
  | pop_checked =>
    simp only [Caller.step] at h
    split at h <;>
      (simp only [Option.some.injEq, Prod.mk.injEq] at h; exact Or.inl (by rw [← h.2.2]))
  | pop_top p =>
    simp only [Caller.step] at h
    split at h <;>
      (simp only [Option.some.injEq, Prod.mk.injEq] at h; exact Or.inl (by rw [← h.2.2]))
  | pop_dest_locked dest =>
    simp only [Caller.step] at h
    split at h <;>
      (simp only [Option.some.injEq, Prod.mk.injEq] at h; exact Or.inl (by rw [← h.2.2]))
  | pop_dest_checked dest =>
    simp only [Caller.step] at h
    split at h <;>
      (simp only [Option.some.injEq, Prod.mk.injEq] at h; exact Or.inl (by rw [← h.2.2]))
  | pop_dest_top dest =>
    simp only [Caller.step] at h
    split at h <;>
      (simp only [Option.some.injEq, Prod.mk.injEq] at h; exact Or.inl (by rw [← h.2.2]))

theorem finish_step {Value : Type} (n : Nat) (t t1 : Caller Value)
    (s s1 sf : ThreadsafeStack Value) (a : Action) (r : Response Value)
    (hf : Caller.finish n t s = some (r, sf)) (h : t.step s = some (a, t1, s1)) :
    ∃ k, n = k + 1 ∧ Caller.finish k t1 s1 = some (r, sf) := by
  cases n with
  | zero =>
    cases t <;> simp [Caller.finish] at hf
    simp [Caller.step] at h
  | succ k =>
    refine ⟨k, rfl, ?_⟩
    simpa [Caller.finish, h] using hf

theorem finish_done {Value : Type} (n : Nat) (r0 r : Response Value)
    (s sf : ThreadsafeStack Value)
    (hf : Caller.finish n (Caller.done r0) s = some (r, sf)) : r = r0 ∧ sf = s := by
  cases n with
  | zero =>
    simp only [Caller.finish, Option.some.injEq, Prod.mk.injEq] at hf
    exact ⟨hf.1.symm, hf.2.symm⟩
  | succ k => simp [Caller.finish, Caller.step] at hf

theorem step_held_action {Value : Type} (t t1 : Caller Value) (s s1 : ThreadsafeStack Value)
    (a : Action) (h : t.step s = some (a, t1, s1)) (hm : s.mutex_ = Mutex.held) :
    a ≠ Action.acquire := by
  obtain ⟨d, m⟩ := s
  simp only at hm
  subst hm
  intro ha
  subst ha
  cases t <;> simp only [Caller.step] at h <;> first
    | cases h
    | (split at h <;> cases h)

theorem step_ready_free {Value : Type} (op : Op Value) (t1 : Caller Value)
    (s s1 : ThreadsafeStack Value) (a : Action)
    (h : (Caller.ready op).step s = some (a, t1, s1)) :
    s.mutex_ = Mutex.free ∧ a = Action.acquire ∧ t1 = op.enter ∧ s1 = ⟨s.data_, Mutex.held⟩ := by
  obtain ⟨d, m⟩ := s
  cases m
  · simp only [Caller.step, Mutex.lock, Option.some.injEq, Prod.mk.injEq] at h
    exact ⟨rfl, h.1.symm, h.2.1.symm, h.2.2.symm⟩
  · simp [Caller.step, Mutex.lock] at h

theorem mem_fst_of_mem_map {β : Type} (rs : List (Nat × β)) (i : Nat)
    (h : i ∈ rs.map Prod.fst) : ∃ r, (i, r) ∈ rs := by
  obtain ⟨p, hp, hpi⟩ := List.mem_map.mp h
  obtain ⟨j, r⟩ := p
  simp only at hpi
  subst hpi
  exact ⟨r, hp⟩

theorem settled_set {Value : Type} (ops : List (Op Value)) (hist hist1 : List Nat)
    (rs : List (Nat × Response Value)) (callers : List (Caller Value)) (j : Nat)
    (t : Caller Value) (h : Settled ops hist rs callers)
    (hj1 : j ∈ hist1) (hsub : ∀ k, k ∈ hist → k ∈ hist1)
    (hj : ∀ p ∈ rs, p.1 ≠ j) :
    Settled ops hist1 rs (callers.set j t) := by
  refine ⟨fun k op hk hn => ?_, fun p hp => ?_⟩
  · have hkj : j ≠ k := fun e => hn (e ▸ hj1)
    rw [List.getElem?_set_ne hkj]
    exact h.1 k op hk (fun hin => hn (hsub k hin))
  · have hpj : j ≠ p.1 := fun e => hj p hp e.symm
    rw [List.getElem?_set_ne hpj]
    exact h.2 p hp

theorem linearized_step {Value : Type} (ops : List (Op Value)) (data : List Value)
    (hist : List Nat) (sys sys1 : System Value) (i : Nat) (a : Action)
    (hl : Linearized ops data hist sys) (hs : sys.step i = some (a, sys1)) :
    Linearized ops data (hist ++ (if a = Action.acquire then [i] else [])) sys1 := by
  obtain ⟨hlen, hnd, hcase⟩ := hl
  unfold System.step at hs
  cases ht : sys.callers[i]? with
  | none => simp [ht] at hs
  | some t =>
    cases hst : t.step sys.stack with
    | none => simp [ht, hst] at hs
    | some x =>
      obtain ⟨a1, t1, s1⟩ := x
      simp only [ht, hst, Option.some.injEq, Prod.mk.injEq] at hs
      obtain ⟨ha, hsys⟩ := hs
      subst ha hsys
      have hi : i < sys.callers.length := (List.getElem?_eq_some_iff.mp ht).1
      have hlen1 : (sys.callers.set i t1).length = ops.length := by
        rw [List.length_set]; exact hlen
      rcases hcase with ⟨hm, rs, hseq, hset⟩ | ⟨hm, h, j, op, rs, s, tj, n, r, sf, hh, hj, hseq, hset, htj, hfin, hcall⟩
      · -- the mutex is free: thread `i` acquires it
        have hfst := sequential_fst ops hist _ rs sys.stack hseq
        by_cases hin : i ∈ hist
        · obtain ⟨r, hr⟩ := mem_fst_of_mem_map rs i (hfst ▸ hin)
          have := hset.2 (i, r) hr
          rw [ht] at this
          cases this
          simp [Caller.step] at hst
        · have hio : i < ops.length := hlen ▸ hi
          have hop : ops[i]? = some ops[i] := List.getElem?_eq_getElem hio
          have := hset.1 i ops[i] hop hin
          rw [ht] at this
          cases this
          obtain ⟨_, ha, ht1, hs1⟩ := step_ready_free _ _ _ _ _ hst
          subst ha ht1 hs1
          obtain ⟨n, r, sf, hfin, hcall⟩ := enter_finish ops[i] sys.stack.data_
          rw [← ThreadsafeStack.free_eq sys.stack hm] at hcall
          refine ⟨hlen1, ?_, Or.inr ⟨rfl, hist, i, ops[i], rs, sys.stack, ops[i].enter, n, r,
            sf, by simp, hop, hseq, ?_, ?_, hfin, hcall⟩⟩
          · simp only [if_true]
            exact List.nodup_append.mpr ⟨hnd, List.nodup_singleton i, by
              intro k hk1 hk2
              rw [List.mem_singleton] at hk2
              exact hin (hk2 ▸ hk1)⟩
          · simp only [if_true]
            refine settled_set ops hist _ rs sys.callers i _ hset (by simp)
              (fun k hk => List.mem_append_left _ hk) ?_
            intro p hp e
            apply hin
            rw [← hfst, ← e]
            exact List.mem_map_of_mem Prod.fst hp
          · exact List.getElem?_set_self hi
      · -- the mutex is held by thread `j`
        have hfst := sequential_fst ops h _ rs s hseq
        have hjh : j ∉ h := by
          rw [hh] at hnd
          intro hjin
          exact (List.nodup_append.mp hnd).2.2 hjin (List.mem_singleton_self j)
        have hjhist : j ∈ hist := by rw [hh]; simp
        have hrsj : ∀ p ∈ rs, p.1 ≠ j := by
          intro p hp e
          apply hjh
          rw [← hfst, ← e]
          exact List.mem_map_of_mem Prod.fst hp
        by_cases hij : i = j
        · subst hij
          rw [ht] at htj
          cases htj
          have hna := step_held_action _ _ _ _ _ hst hm
          obtain ⟨k, hk, hfin1⟩ := finish_step n _ _ _ _ _ _ _ hfin hst
          simp only [if_neg hna, List.append_nil]
          refine ⟨hlen1, hnd, ?_⟩
          rcases step_held _ _ _ _ _ hst hm with hm1 | ⟨r0, ht0, ht1, hs1⟩
          · exact Or.inr ⟨hm1, h, i, op, rs, s, t1, k, r, sf, hh, hj, hseq,
              settled_set ops hist hist rs sys.callers i t1 hset hjhist (fun _ hk => hk) hrsj,
              List.getElem?_set_self hi, hfin1, hcall⟩
          · subst ht1
            obtain ⟨hr, hsf⟩ := finish_done k r0 r _ _ hfin1
            subst hr hsf
            refine Or.inl ⟨by rw [hs1], rs ++ [(i, r)], ?_, ?_⟩
            · rw [hh]
              exact sequential_append ops h _ rs s i op r _ hseq hj hcall
            · have hs2 := settled_set ops hist hist rs sys.callers i (Caller.done r) hset
                hjhist (fun _ hk => hk) hrsj
              refine ⟨hs2.1, fun p hp => ?_⟩
              rcases List.mem_append.mp hp with hp1 | hp1
              · exact hs2.2 p hp1
              · rw [List.mem_singleton] at hp1
                subst hp1
                exact List.getElem?_set_self hi
        · exfalso
          by_cases hin : i ∈ hist
          · rw [hh] at hin
            rcases List.mem_append.mp hin with hin1 | hin1
            · obtain ⟨r1, hr1⟩ := mem_fst_of_mem_map rs i (hfst ▸ hin1)
              have := hset.2 (i, r1) hr1
              rw [ht] at this
              cases this
              simp [Caller.step] at hst
            · exact hij (List.mem_singleton.mp hin1)
          · have hio : i < ops.length := hlen ▸ hi
            have hop : ops[i]? = some ops[i] := List.getElem?_eq_getElem hio
            have := hset.1 i ops[i] hop hin
            rw [ht] at this
            cases this
            have := (step_ready_free _ _ _ _ _ hst).1
            rw [hm] at this
            cases this

theorem acquisitions_cons (i : Nat) (a : Action) (log : List (Nat × Action)) :
    acquisitions ((i, a) :: log)
      = (if a = Action.acquire then [i] else []) ++ acquisitions log := by
  by_cases h : a = Action.acquire <;> simp [acquisitions, h]

theorem acquisitions_append (l1 l2 : List (Nat × Action)) :
    acquisitions (l1 ++ l2) = acquisitions l1 ++ acquisitions l2 := by
  simp [acquisitions, List.filter_append]

theorem exec_append {Value : Type} (s1 s2 : List Nat) :
    ∀ sys : System Value, sys.exec (s1 ++ s2)
      = ((sys.exec s1).1 ++ ((sys.exec s1).2.exec s2).1, ((sys.exec s1).2.exec s2).2) := by
  induction s1 with
  | nil => intro sys; simp [System.exec]
  | cons i rest ih =>
    intro sys
    rw [List.cons_append]
    simp only [System.exec]
    cases hs : sys.step i with
    | none => exact ih sys
    | some x => simp only [ih x.2, List.cons_append]

theorem linearized_exec {Value : Type} (ops : List (Op Value)) (data : List Value)
    (sched : List Nat) :
    ∀ (hist : List Nat) (sys : System Value), Linearized ops data hist sys →
      Linearized ops data (hist ++ acquisitions (sys.exec sched).1) (sys.exec sched).2 := by
  induction sched with
  | nil => intro hist sys hl; simpa [System.exec, acquisitions] using hl
  | cons i rest ih =>
    intro hist sys hl
    simp only [System.exec]
    cases hs : sys.step i with
    | none => exact ih hist sys hl
    | some x =>
      obtain ⟨a, sys1⟩ := x
      have := ih _ sys1 (linearized_step ops data hist sys sys1 i a hl hs)
      simpa only [acquisitions_cons, List.append_assoc] using this

theorem linearized_start {Value : Type} (ops : List (Op Value)) (data : List Value) :
    Linearized ops data [] (System.start ops data) := by
  refine ⟨by simp [System.start], List.nodup_nil, Or.inl ⟨rfl, [], rfl, ?_, ?_⟩⟩
  · intro i op hi _
    simp [System.start, hi]
  · intro p hp
    cases hp

theorem is_done_iff {Value : Type} (t : Caller Value) :
    t.is_done = true ↔ ∃ r, t = Caller.done r := by
  cases t <;> simp [Caller.is_done]

theorem linearized_all_done {Value : Type} (ops : List (Op Value)) (data : List Value)
    (hist : List Nat) (sys : System Value) (hl : Linearized ops data hist sys)
    (hd : sys.all_done = true) :
    sys.stack.mutex_ = Mutex.free ∧ hist.Perm (List.range ops.length) ∧
      ∃ rs, sequential ops ⟨data, Mutex.free⟩ hist = some (rs, sys.stack) ∧
        rs.map Prod.fst = hist ∧
        ∀ p ∈ rs, sys.callers[p.1]? = some (Caller.done p.2) := by
  obtain ⟨hlen, hnd, hcase⟩ := hl
  have hall : ∀ t ∈ sys.callers, ∃ r, t = Caller.done r := by
    intro t ht
    exact (is_done_iff t).mp (List.all_eq_true.mp hd t ht)
  rcases hcase with ⟨hm, rs, hseq, hset⟩ | ⟨hm, h, j, op, rs, s, tj, n, r, sf, hh, hj, hseq, hset, htj, hfin, hcall⟩
  · refine ⟨hm, ?_, rs, hseq, sequential_fst ops hist _ rs _ hseq, hset.2⟩
    rw [List.perm_ext_iff_of_nodup hnd (List.nodup_range _)]
    intro i
    rw [List.mem_range]
    constructor
    · exact sequential_lt ops hist _ rs _ hseq i
    · intro hi
      by_contra hin
      have hop : ops[i]? = some ops[i] := List.getElem?_eq_getElem hi
      have hr := hset.1 i ops[i] hop hin
      obtain ⟨r, hr1⟩ := hall _ (List.getElem?_mem hr)
      cases hr1
  · exfalso
    obtain ⟨r0, hr0⟩ := hall _ (List.getElem?_mem htj)
    subst hr0
    obtain ⟨_, hsf⟩ := finish_done n r0 r _ _ hfin
    have := (call_free op s r sf hcall).2
    rw [hsf, hm] at this
    cases this

theorem finish_ready_held {Value : Type} (n : Nat) (op : Op Value) (s : ThreadsafeStack Value)
    (r : Response Value) (sf : ThreadsafeStack Value) (hm : s.mutex_ = Mutex.held)
    (hfin : Caller.finish n (Caller.ready op) s = some (r, sf)) : False := by
  obtain ⟨d, m⟩ := s
  simp only at hm
  subst hm
  cases n <;> simp [Caller.finish, Caller.step, Mutex.lock] at hfin

theorem linearized_done_mem {Value : Type} (ops : List (Op Value)) (data : List Value)
    (hist : List Nat) (sys : System Value) (hl : Linearized ops data hist sys)
    (i : Nat) (r : Response Value) (hi : sys.callers[i]? = some (Caller.done r)) :
    i ∈ hist := by
  obtain ⟨hlen, hnd, hcase⟩ := hl
  have hio : i < ops.length := hlen ▸ (List.getElem?_eq_some_iff.mp hi).1
  have hop : ops[i]? = some ops[i] := List.getElem?_eq_getElem hio
  by_contra hin
  have hset : ∃ rs, Settled ops hist rs sys.callers := by
    rcases hcase with ⟨_, rs, _, hset⟩ | ⟨_, _, _, _, rs, _, _, _, _, _, _, _, _, hset, _⟩
    · exact ⟨rs, hset⟩
    · exact ⟨rs, hset⟩
  obtain ⟨rs, hset⟩ := hset
  have := hset.1 i ops[i] hop hin
  rw [hi] at this
  cases this

theorem linearized_ready_not_mem {Value : Type} (ops : List (Op Value)) (data : List Value)
    (hist : List Nat) (sys : System Value) (hl : Linearized ops data hist sys)
    (j : Nat) (op : Op Value) (hj : sys.callers[j]? = some (Caller.ready op)) :
    j ∉ hist := by
  obtain ⟨hlen, hnd, hcase⟩ := hl
  intro hin
  rcases hcase with ⟨hm, rs, hseq, hset⟩ | ⟨hm, h, k, opk, rs, s, tk, n, r, sf, hh, hk, hseq, hset, htk, hfin, hcall⟩
  · have hfst := sequential_fst ops hist _ rs sys.stack hseq
    obtain ⟨r, hr⟩ := mem_fst_of_mem_map rs j (hfst ▸ hin)
    have := hset.2 (j, r) hr
    rw [hj] at this
    cases this
  · have hfst := sequential_fst ops h _ rs s hseq
    rw [hh] at hin
    rcases List.mem_append.mp hin with hin1 | hin1
    · obtain ⟨r1, hr1⟩ := mem_fst_of_mem_map rs j (hfst ▸ hin1)
      have := hset.2 (j, r1) hr1
      rw [hj] at this
      cases this
    · rw [List.mem_singleton] at hin1
      subst hin1
      rw [hj] at htk
      cases htk
      exact finish_ready_held n op _ r sf hm hfin

/-! ## No deadlock -/

theorem step_remaining {Value : Type} (t t1 : Caller Value) (s s1 : ThreadsafeStack Value)
    (a : Action) (h : t.step s = some (a, t1, s1)) : t1.remaining < t.remaining := by
  cases t with
  | ready op =>
    obtain ⟨_, _, ht1, _⟩ := step_ready_free op t1 s s1 a h
    subst ht1
    cases op <;> simp [Op.enter, Caller.remaining]
  | done r => simp [Caller.step] at h
  | undefined => simp [Caller.step] at h
  | unlocking r =>
    simp only [Caller.step, Option.some.injEq, Prod.mk.injEq] at h
    simp [← h.2.1, Caller.remaining]
  | push_locked v =>
    simp only [Caller.step, Option.some.injEq, Prod.mk.injEq] at h
    simp [← h.2.1, Caller.remaining]
  | empty_locked =>
    simp only [Caller.step, Option.some.injEq, Prod.mk.injEq] at h
    simp [← h.2.1, Caller.remaining]
  | copy_locked this =>
    simp only [Caller.step, Option.some.injEq, Prod.mk.injEq] at h
    simp [← h.2.1, Caller.remaining]
  | pop_locked =>
    simp only [Caller.step] at h
    split at h <;>
      (simp only [Option.some.injEq, Prod.mk.injEq] at h; simp [← h.2.1, Caller.remaining])
  | pop_checked =>
    simp only [Caller.step] at h
    split at h <;>
      (simp only [Option.some.injEq, Prod.mk.injEq] at h; simp [← h.2.1, Caller.remaining])
  | pop_top p =>
    simp only [Caller.step] at h
    split at h <;>
      (simp only [Option.some.injEq, Prod.mk.injEq] at h; simp [← h.2.1, Caller.remaining])
  | pop_dest_locked dest =>
    simp only [Caller.step] at h
    split at h <;>
      (simp only [Option.some.injEq, Prod.mk.injEq] at h; simp [← h.2.1, Caller.remaining])
  | pop_dest_checked dest =>
    simp only [Caller.step] at h
    split at h <;>
      (simp only [Option.some.injEq, Prod.mk.injEq] at h; simp [← h.2.1, Caller.remaining])
  | pop_dest_top dest =>
    simp only [Caller.step] at h
    split at h <;>
      (simp only [Option.some.injEq, Prod.mk.injEq] at h; simp [← h.2.1, Caller.remaining])

theorem sum_map_set {α : Type} (f : α → Nat) (l : List α) :
    ∀ (i : Nat) (t0 t : α), l[i]? = some t0 →
      ((l.set i t).map f).sum + f t0 = (l.map f).sum + f t := by
  induction l with
  | nil => intro i t0 t h; simp at h
  | cons x l ih =>
    intro i t0 t h
    cases i with
    | zero =>
      simp only [List.getElem?_cons_zero, Option.some.injEq] at h
      subst h
      simp only [List.set_cons_zero, List.map_cons, List.sum_cons]
      omega
    | succ k =>
      simp only [List.getElem?_cons_succ] at h
      have := ih k t0 t h
      simp only [List.set_cons_succ, List.map_cons, List.sum_cons]
      omega

theorem system_step_remaining {Value : Type} (sys sys1 : System Value) (i : Nat) (a : Action)
    (hs : sys.step i = some (a, sys1)) : sys1.remaining < sys.remaining := by
  unfold System.step at hs
  cases ht : sys.callers[i]? with
  | none => simp [ht] at hs
  | some t =>
    cases hst : t.step sys.stack with
    | none => simp [ht, hst] at hs
    | some x =>
      obtain ⟨a1, t1, s1⟩ := x
      simp only [ht, hst, Option.some.injEq, Prod.mk.injEq] at hs
      obtain ⟨_, hsys⟩ := hs
      subst hsys
      have h1 := step_remaining t t1 _ s1 a1 hst
      have h2 := sum_map_set Caller.remaining sys.callers i t t1 ht
      simp only [System.remaining]
      omega

theorem linearized_can_move {Value : Type} (ops : List (Op Value)) (data : List Value)
    (hist : List Nat) (sys : System Value) (hl : Linearized ops data hist sys)
    (hd : sys.all_done = false) : ∃ i a sys1, sys.step i = some (a, sys1) := by
  obtain ⟨hlen, hnd, hcase⟩ := hl
  rcases hcase with ⟨hm, rs, hseq, hset⟩ | ⟨hm, h, j, op, rs, s, tj, n, r, sf, hh, hj, hseq, hset, htj, hfin, hcall⟩
  · have hfst := sequential_fst ops hist _ rs sys.stack hseq
    have hex : ∃ t ∈ sys.callers, t.is_done = false := by
      by_contra hno
      have : sys.all_done = true := by
        apply List.all_eq_true.mpr
        intro t ht
        by_contra hf
        exact hno ⟨t, ht, by simpa using hf⟩
      rw [this] at hd
      cases hd
    obtain ⟨t, ht, htd⟩ := hex
    obtain ⟨i, hi⟩ := List.mem_iff_getElem?.mp ht
    have hio : i < ops.length := hlen ▸ (List.getElem?_eq_some_iff.mp hi).1
    have hop : ops[i]? = some ops[i] := List.getElem?_eq_getElem hio
    by_cases hin : i ∈ hist
    · obtain ⟨r, hr⟩ := mem_fst_of_mem_map rs i (hfst ▸ hin)
      have := hset.2 (i, r) hr
      rw [hi] at this
      cases this
      simp [Caller.is_done] at htd
    · have hr := hset.1 i ops[i] hop hin
      refine ⟨i, Action.acquire, ⟨⟨sys.stack.data_, Mutex.held⟩,
        sys.callers.set i ops[i].enter⟩, ?_⟩
      simp [System.step, hr, Caller.step, hm, Mutex.lock]
  · cases n with
    | zero =>
      exfalso
      have hz : sys.stack = sf := by
        cases tj <;> simp only [Caller.finish, Option.some.injEq, Prod.mk.injEq] at hfin <;>
          first
            | exact hfin.2
            | cases hfin
      have := (call_free op s r sf hcall).2
      rw [← hz, hm] at this
      cases this
    | succ k =>
      simp only [Caller.finish] at hfin
      cases hst : tj.step sys.stack with
      | none => simp [hst] at hfin
      | some x =>
        obtain ⟨a, t1, s1⟩ := x
        exact ⟨j, a, ⟨s1, sys.callers.set j t1⟩, by simp [System.step, htj, hst]⟩

theorem linearized_completes {Value : Type} (ops : List (Op Value)) (data : List Value)
    (m : Nat) :
    ∀ (hist : List Nat) (sys : System Value), Linearized ops data hist sys →
      sys.remaining ≤ m → ∃ sched, (sys.exec sched).2.all_done = true := by
  induction m with
  | zero =>
    intro hist sys hl hm
    cases hd : sys.all_done with
    | true => exact ⟨[], by simpa [System.exec] using hd⟩
    | false =>
      obtain ⟨i, a, sys1, hs⟩ := linearized_can_move ops data hist sys hl hd
      have := system_step_remaining sys sys1 i a hs
      omega
  | succ m ih =>
    intro hist sys hl hm
    cases hd : sys.all_done with
    | true => exact ⟨[], by simpa [System.exec] using hd⟩
    | false =>
      obtain ⟨i, a, sys1, hs⟩ := linearized_can_move ops data hist sys hl hd
      have hlt := system_step_remaining sys sys1 i a hs
      obtain ⟨sched, hsched⟩ := ih _ sys1 (linearized_step ops data hist sys sys1 i a hl hs)
        (by omega)
      exact ⟨i :: sched, by simpa [System.exec, hs] using hsched⟩

theorem run_completes {Value : Type} (ops : List (Op Value)) (data : List Value)
    (sched : List Nat) :
    ∃ more, (System.run ops data (sched ++ more)).2.all_done = true := by
  have hinv := linearized_exec ops data sched [] _ (linearized_start ops data)
  obtain ⟨more, hmore⟩ := linearized_completes ops data _ _ _ hinv (Nat.le_refl _)
  exact ⟨more, by simpa [System.run, exec_append] using hmore⟩

/-- C13 (linearizability): take any threads, each making one call (`push`, `pop()`,
`pop(dest)`, `empty()` or a copy construction) on the same stack, and any schedule of
their statements. At every moment the system is what the calls of the threads that have
acquired the mutex so far, made one after the other as whole calls in the order of
acquisition, lead to, the last of them possibly still under way with no other thread
inside. When all calls are over the mutex is free, that order lists every thread once,
and the stack and every response are those of the sequential run in that order. The
order respects real time: a thread whose call is over at some moment comes before every
thread that has not yet acquired the mutex at that moment. No execution is stuck: it can
always be continued until all calls are over. -/
theorem linearizable {Value : Type} (ops : List (Op Value)) (data : List Value)
    (sched : List Nat) :
    Linearized ops data (acquisitions (System.run ops data sched).1)
      (System.run ops data sched).2 ∧
    ((System.run ops data sched).2.all_done = true →
      (System.run ops data sched).2.stack.mutex_ = Mutex.free ∧
      (acquisitions (System.run ops data sched).1).Perm (List.range ops.length) ∧
      ∃ rs, sequential ops ⟨data, Mutex.free⟩ (acquisitions (System.run ops data sched).1)
          = some (rs, (System.run ops data sched).2.stack) ∧
        rs.map Prod.fst = acquisitions (System.run ops data sched).1 ∧
        ∀ p ∈ rs, (System.run ops data sched).2.callers[p.1]? = some (Caller.done p.2)) ∧
    (∀ s1 s2 i j r op, sched = s1 ++ s2 →
      (System.run ops data s1).2.callers[i]? = some (Caller.done r) →
      (System.run ops data s1).2.callers[j]? = some (Caller.ready op) →
      i ∈ acquisitions (System.run ops data s1).1 ∧
      j ∉ acquisitions (System.run ops data s1).1 ∧
      ∃ later, acquisitions (System.run ops data sched).1
        = acquisitions (System.run ops data s1).1 ++ later) ∧
    (∃ more, (System.run ops data (sched ++ more)).2.all_done = true) := by
  have hinv : ∀ sc, Linearized ops data (acquisitions (System.run ops data sc).1)
      (System.run ops data sc).2 := by
    intro sc
    have := linearized_exec ops data sc [] _ (linearized_start ops data)
    simpa [System.run] using this
  refine ⟨hinv sched, fun hd => linearized_all_done ops data _ _ (hinv sched) hd, ?_,
    run_completes ops data sched⟩
  intro s1 s2 i j r op hs hi hj
  refine ⟨linearized_done_mem ops data _ _ (hinv s1) i r hi,
    linearized_ready_not_mem ops data _ _ (hinv s1) j op hj, ?_⟩
  subst hs
  refine ⟨acquisitions (((System.start ops data).exec s1).2.exec s2).1, ?_⟩
  simp only [System.run, exec_append, acquisitions_append]

/-- Three threads on an empty stack, `push(1)`, `pop()` and `empty()`, interleaved: the
`pop()` acquires first and throws, the `push` comes second, `empty()` last. -/
theorem linearizable_scenario :
    System.run [Op.push 1, Op.pop, Op.empty] ([] : List Nat)
        [1, 0, 2, 1, 0, 1, 0, 2, 0, 2, 0, 2, 2, 2]
      = ([(1, Action.acquire), (1, Action.access Access.empty), (1, Action.release),
          (0, Action.acquire), (0, Action.access Access.push), (0, Action.release),
          (2, Action.acquire), (2, Action.access Access.empty), (2, Action.release)],
        ⟨⟨[1], Mutex.free⟩,
          [Caller.done Response.push_returned,
            Caller.done (Response.pop_thrown EmptyStackException.default),
            Caller.done (Response.empty_returned false)]⟩) ∧
    sequential [Op.push 1, Op.pop, Op.empty] (⟨[], Mutex.free⟩ : ThreadsafeStack Nat) [1, 0, 2]
      = some ([(1, Response.pop_thrown EmptyStackException.default),
          (0, Response.push_returned), (2, Response.empty_returned false)],
        ⟨[1], Mutex.free⟩) :=
  ⟨rfl, rfl⟩

/-! ## Concurrent pushes -/

theorem range_filterMap_getElem? {α : Type} (vs : List α) :
    (List.range vs.length).filterMap (fun i => vs[i]?) = vs := by
  induction vs using List.reverseRecOn with
  | nil => rfl
  | append_singleton vs v ih =>
    rw [List.length_append, List.length_singleton, List.range_succ, List.filterMap_append]
    have h1 : (List.range vs.length).filterMap (fun i => (vs ++ [v])[i]?)
        = (List.range vs.length).filterMap (fun i => vs[i]?) := by
      apply List.filterMap_congr
      intro i hi
      rw [List.mem_range] at hi
      exact List.getElem?_append_left hi
    rw [h1, ih]
    simp

theorem sequential_pushes {Value : Type} (vs : List Value) (order : List Nat) :
    ∀ (d : List Value) rs s1,
      sequential (vs.map Op.push) ⟨d, Mutex.free⟩ order = some (rs, s1) →
      s1 = ⟨d ++ order.filterMap (fun i => vs[i]?), Mutex.free⟩ := by
  induction order with
  | nil =>
    intro d rs s1 h
    simp only [sequential, Option.some.injEq, Prod.mk.injEq] at h
    simp [← h.2]
  | cons i order ih =>
    intro d rs s1 h
    simp only [sequential, List.getElem?_map] at h
    cases hv : vs[i]? with
    | none => simp [hv] at h
    | some v =>
      simp only [hv, Option.map_some', Op.call, ThreadsafeStack.push_free] at h
      cases hq : sequential (vs.map Op.push) ⟨d ++ [v], Mutex.free⟩ order with
      | none => simp [hq] at h
      | some x =>
        obtain ⟨rs2, s3⟩ := x
        simp only [hq, Option.map_some', Option.some.injEq, Prod.mk.injEq] at h
        rw [← h.2, ih (d ++ [v]) rs2 s3 hq]
        simp [hv]

/-- C12: `N` distinct values are pushed by `N` threads, one `push` each, on a stack that
is empty at the start. Whatever the schedule of their statements, once all the pushes
are over, draining the stack by `pop()` until `EmptyStackException` returns exactly `N`
pointers, to the `N` values pushed, each exactly once, and leaves the stack empty. -/
theorem concurrent_pushes_drained {Value : Type} (vs : List Value) (sched : List Nat)
    (hd : vs.Nodup)
    (hdone : (System.run (vs.map Op.push) [] sched).2.all_done = true) :
    ∃ out s1,
      ThreadsafeStack.drain (System.run (vs.map Op.push) [] sched).2.stack (vs.length + 1)
        = some (out, s1) ∧
      s1.data_ = [] ∧ out.length = vs.length ∧ out.Nodup ∧
      out.Perm (vs.map make_shared) ∧ (∀ v, make_shared v ∈ out ↔ v ∈ vs) := by
  have hinv := linearized_exec (vs.map Op.push) [] sched [] _
    (linearized_start (vs.map Op.push) [])
  obtain ⟨_, hperm, rs, hseq, _, _⟩ :=
    linearized_all_done (vs.map Op.push) [] _ _ hinv hdone
  have hstack := sequential_pushes vs _ [] rs _ hseq
  rw [List.length_map] at hperm
  have hdata : (([] : List Nat) ++ acquisitions
      ((System.start (vs.map Op.push) ([] : List Value)).exec sched).1).filterMap
        (fun i => vs[i]?) |>.Perm vs := by
    have := hperm.filterMap (fun i => vs[i]?)
    rwa [range_filterMap_getElem?] at this
  generalize ((([] : List Nat) ++ acquisitions
      ((System.start (vs.map Op.push) ([] : List Value)).exec sched).1).filterMap
        (fun i => vs[i]?)) = data at hdata hstack
  have hout : (data.reverse.map make_shared).Perm (vs.map make_shared) :=
    ((List.reverse_perm data).trans hdata).map make_shared
  have hinj : Function.Injective (make_shared : Value → SharedPointer Value) := by
    intro a b hab
    simpa [make_shared] using hab
  refine ⟨data.reverse.map make_shared, ⟨[], Mutex.free⟩, ?_, rfl, ?_, ?_, hout, ?_⟩
  · have := ThreadsafeStack.drain_free data
    rw [hdata.length_eq] at this
    simp only [System.run]
    rw [hstack]
    simpa using this
  · simp [hdata.length_eq]
  · exact hout.nodup_iff.mpr (hd.map hinj)
  · intro v
    rw [hout.mem_iff]
    exact List.mem_map_of_injective hinj

theorem concurrent_pushes_drained_witness :
    ∃ out s1,
      ThreadsafeStack.drain
          (System.run ([10, 20, 30].map Op.push) [] [1, 0, 1, 2, 1, 0, 0, 0, 2, 2, 2]).2.stack
          ([10, 20, 30].length + 1)
        = some (out, s1) ∧
      s1.data_ = [] ∧ out.length = [10, 20, 30].length ∧ out.Nodup ∧
      out.Perm ([10, 20, 30].map make_shared) ∧
      (∀ v, make_shared v ∈ out ↔ v ∈ [10, 20, 30]) :=
  concurrent_pushes_drained [10, 20, 30] [1, 0, 1, 2, 1, 0, 0, 0, 2, 2, 2] (by decide) rfl

/-- The schedule of the witness: thread 1 pushes first while 0 and 2 wait, then 0,
then 2; the drain returns 30, 10, 20. -/
theorem concurrent_pushes_scenario :
    (System.run ([10, 20, 30].map Op.push) [] [1, 0, 1, 2, 1, 0, 0, 0, 2, 2, 2]).2.stack
      = ⟨[20, 10, 30], Mutex.free⟩ ∧
    ThreadsafeStack.drain (⟨[20, 10, 30], Mutex.free⟩ : ThreadsafeStack Nat) 4
      = some ([some 30, some 10, some 20], ⟨[], Mutex.free⟩) :=
  ⟨rfl, rfl⟩

end para

namespace concur

/-! ## `ThreadGuard` -/

theorem destroy_joinable (w : World) (h : joinable w = true) (hc : contract w) :
    ThreadGuard.destroy w = Ended.returned
      ⟨{ w.t with joinable := false }, w.joins + 1, w.cout ++ ["t_ has been join()."]⟩ := by
  obtain ⟨⟨j, c, f⟩, n, out⟩ := w
  obtain ⟨h1, h2⟩ := hc
  simp only [joinable] at h h1 h2
  subst h h1 h2
  rfl

theorem destroy_not_joinable (w : World) (h : joinable w = false) :
    ThreadGuard.destroy w
      = Ended.returned { w with cout := w.cout ++ ["t_ has been join()."] } := by
  obtain ⟨⟨j, c, f⟩, n, out⟩ := w
  simp only [joinable] at h
  subst h
  rfl

theorem destroy_self_join (w : World) (h : joinable w = true) (hc : w.t.of_caller = true) :
    ThreadGuard.destroy w = Ended.thrown SystemError.resource_deadlock_would_occur w := by
  obtain ⟨⟨j, c, f⟩, n, out⟩ := w
  simp only [joinable] at h hc
  subst h hc
  rfl

theorem destroy_never (w : World) (h : joinable w = true) (hc : w.t.of_caller = false)
    (hf : w.t.finishes = false) : ThreadGuard.destroy w = Ended.never := by
  obtain ⟨⟨j, c, f⟩, n, out⟩ := w
  simp only [joinable] at h hc hf
  subst h hc hf
  rfl

theorem destroy_returned (w w1 : World) (h : joinable w = true)
    (hr : ThreadGuard.destroy w = Ended.returned w1) :
    contract w ∧ joinable w1 = false ∧ w1.joins = w.joins + 1 := by
  obtain ⟨⟨j, c, f⟩, n, out⟩ := w
  simp only [joinable] at h
  subst h
  cases c <;> cases f
  · have : ThreadGuard.destroy ⟨⟨true, false, false⟩, n, out⟩ = Ended.never := rfl
    rw [this] at hr
    cases hr
  · have : ThreadGuard.destroy ⟨⟨true, false, true⟩, n, out⟩
        = Ended.returned ⟨⟨false, false, true⟩, n + 1, out ++ ["t_ has been join()."]⟩ := rfl
    rw [this] at hr
    cases hr
    exact ⟨⟨rfl, rfl⟩, rfl, rfl⟩
  · have : ThreadGuard.destroy ⟨⟨true, true, false⟩, n, out⟩
        = Ended.thrown SystemError.resource_deadlock_would_occur
            ⟨⟨true, true, false⟩, n, out⟩ := rfl
    rw [this] at hr
    cases hr
  · have : ThreadGuard.destroy ⟨⟨true, true, true⟩, n, out⟩
        = Ended.thrown SystemError.resource_deadlock_would_occur
            ⟨⟨true, true, true⟩, n, out⟩ := rfl
    rw [this] at hr
    cases hr

/-- C7: a guard around a joinable handle leaves it not joinable once its scope ends.
For every joinable handle, whatever the body writes and whether it leaves normally or by
an exception: whenever the scope ends, it ends with the exit of the body, the handle is
not joinable and `join()` was performed on it exactly once. Under the caller contract
(the handle is not that of the destroying thread, and the guarded thread finishes) the
scope does end. Outside the contract `~ThreadGuard` does not return: on a self-join
`join()` throws `resource_deadlock_would_occur` with the handle still joinable and no
join performed, and for a thread that does not finish `join()` never returns. -/
theorem guard_joins_joinable (body : List String → Exit × List String) (w : World)
    (h : joinable w = true) :
    (∀ x w1, guarded_scope body w = Ended.returned (x, w1) →
      x = (body w.cout).1 ∧ joinable w1 = false ∧ w1.joins = w.joins + 1) ∧
    (contract w →
      ∃ w1, guarded_scope body w = Ended.returned ((body w.cout).1, w1) ∧
        joinable w1 = false ∧ w1.joins = w.joins + 1) ∧
    (w.t.of_caller = true →
      ∃ w1, guarded_scope body w
          = Ended.thrown SystemError.resource_deadlock_would_occur w1 ∧
        joinable w1 = true ∧ w1.joins = w.joins) ∧
    (w.t.of_caller = false → w.t.finishes = false →
      guarded_scope body w = Ended.never) := by
  refine ⟨fun x w1 hr => ?_, fun hc => ?_, fun hc => ?_, fun hc hf => ?_⟩
  · simp only [guarded_scope] at hr
    cases hd : ThreadGuard.destroy { w with cout := (body w.cout).2 } with
    | returned w2 =>
      rw [hd] at hr
      simp only [Ended.bind, Ended.returned.injEq, Prod.mk.injEq] at hr
      obtain ⟨hx, hw⟩ := hr
      subst hx hw
      obtain ⟨_, h2, h3⟩ :=
        destroy_returned ⟨w.t, w.joins, (body w.cout).2⟩ w2 h hd
      exact ⟨rfl, h2, h3⟩
    | thrown e w2 =>
      rw [hd] at hr
      cases hr
    | never =>
      rw [hd] at hr
      cases hr
  · have hd := destroy_joinable { w with cout := (body w.cout).2 } h hc
    refine ⟨⟨{ w.t with joinable := false }, w.joins + 1,
      (body w.cout).2 ++ ["t_ has been join()."]⟩, ?_, rfl, rfl⟩
    simp only [guarded_scope, hd]
    rfl
  · have hd := destroy_self_join { w with cout := (body w.cout).2 } h hc
    refine ⟨{ w with cout := (body w.cout).2 }, ?_, h, rfl⟩
    simp only [guarded_scope, hd]
    rfl
  · have hd := destroy_never { w with cout := (body w.cout).2 } h hc hf
    simp only [guarded_scope, hd]
    rfl

theorem guard_joins_joinable_witness :
    joinable ⟨⟨true, false, true⟩, 0, []⟩ = true ∧
    ∃ w1, guarded_scope (fun out => (Exit.exception, out ++ ["std::exception"]))
          ⟨⟨true, false, true⟩, 0, []⟩
        = Ended.returned (((fun out => (Exit.exception, out ++ ["std::exception"]))
            (World.cout ⟨⟨true, false, true⟩, 0, []⟩)).1, w1) ∧
      joinable w1 = false ∧ w1.joins = (World.joins ⟨⟨true, false, true⟩, 0, []⟩) + 1 :=
  ⟨rfl, (guard_joins_joinable (fun out => (Exit.exception, out ++ ["std::exception"]))
    ⟨⟨true, false, true⟩, 0, []⟩ rfl).2.1 ⟨rfl, rfl⟩⟩

/-- The run of `main`: the handle is that of another thread, whose function returns;
the body catches its own exception and leaves normally. -/
theorem guarded_scope_main :
    guarded_scope (fun out => (Exit.normal, out ++ ["std::exception"]))
        ⟨⟨true, false, true⟩, 0, []⟩
      = Ended.returned (Exit.normal,
          ⟨⟨false, false, true⟩, 1, ["std::exception", "t_ has been join()."]⟩) :=
  rfl

/-- A guard around the handle of the destroying thread itself, and one around a thread
that does not finish: the scope does not end. -/
theorem guarded_scope_outside_contract :
    guarded_scope (fun out => (Exit.normal, out)) ⟨⟨true, true, true⟩, 0, []⟩
      = Ended.thrown SystemError.resource_deadlock_would_occur ⟨⟨true, true, true⟩, 0, []⟩ ∧
    guarded_scope (fun out => (Exit.normal, out)) ⟨⟨true, false, false⟩, 0, []⟩
      = Ended.never :=
  ⟨rfl, rfl⟩

/-- C8 as stated fails: destroying a guard whose handle is already not joinable is not
without effect, `~ThreadGuard` writes the line `t_ has been join().` to `std::cout`. -/
theorem destroy_not_joinable_writes :
    ThreadGuard.destroy ⟨⟨false, false, true⟩, 1, []⟩
      = Ended.returned ⟨⟨false, false, true⟩, 1, ["t_ has been join()."]⟩ ∧
    ThreadGuard.destroy ⟨⟨false, false, true⟩, 1, []⟩
      ≠ Ended.returned ⟨⟨false, false, true⟩, 1, []⟩ := by
  refine ⟨rfl, ?_⟩
  intro h
  have h1 : (⟨⟨false, false, true⟩, 1, ["t_ has been join()."]⟩ : World)
      = ⟨⟨false, false, true⟩, 1, []⟩ :=
    Ended.returned.inj h
  exact absurd h1 (by decide)

/-- C8, amended: when a guard is destroyed while its handle is already not joinable,
`~ThreadGuard` performs no join and leaves the handle state unchanged; its only effect
is the line `t_ has been join().` appended to `std::cout`. -/
theorem destroy_not_joinable_frame (w : World) (h : joinable w = false) :
    ∃ w1, ThreadGuard.destroy w = Ended.returned w1 ∧ w1.t = w.t ∧ w1.joins = w.joins ∧
      w1.cout = w.cout ++ ["t_ has been join()."] :=
  ⟨_, destroy_not_joinable w h, rfl, rfl, rfl⟩

theorem destroy_not_joinable_frame_witness :
    joinable ⟨⟨false, false, true⟩, 1, ["x"]⟩ = false ∧
    ∃ w1, ThreadGuard.destroy ⟨⟨false, false, true⟩, 1, ["x"]⟩ = Ended.returned w1 ∧
      w1.t = World.t ⟨⟨false, false, true⟩, 1, ["x"]⟩ ∧
      w1.joins = World.joins ⟨⟨false, false, true⟩, 1, ["x"]⟩ ∧
      w1.cout = World.cout ⟨⟨false, false, true⟩, 1, ["x"]⟩ ++ ["t_ has been join()."] :=
  ⟨rfl, destroy_not_joinable_frame ⟨⟨false, false, true⟩, 1, ["x"]⟩ rfl⟩


/-- C18 as stated fails: on a joinable handle that is the handle of the calling thread
itself, the join-if-joinable step calls `join()`, which throws
`resource_deadlock_would_occur`; the step does not return and the handle is left
joinable, not not-joinable. -/
theorem join_if_joinable_self_join :
    joinable ⟨⟨true, true, true⟩, 0, []⟩ = true ∧
    ThreadGuard.join_if_joinable ⟨⟨true, true, true⟩, 0, []⟩
      = Ended.thrown SystemError.resource_deadlock_would_occur ⟨⟨true, true, true⟩, 0, []⟩ ∧
    ¬ ∃ w1, ThreadGuard.join_if_joinable ⟨⟨true, true, true⟩, 0, []⟩ = Ended.returned w1 ∧
      joinable w1 = false := by
  refine ⟨rfl, rfl, ?_⟩
  rintro ⟨w1, h, _⟩
  have h1 : ThreadGuard.join_if_joinable ⟨⟨true, true, true⟩, 0, []⟩
      = Ended.thrown SystemError.resource_deadlock_would_occur
          ⟨⟨true, true, true⟩, 0, []⟩ := rfl
  rw [h1] at h
  cases h

/-- C18, amended: for every handle state, running the join-if-joinable step of
`~ThreadGuard` twice in succession ends as running it once does. Whenever the step
returns, which it does when the handle is not joinable and when it is joinable under
the caller contract (the handle is not that of the calling thread, and the thread
finishes), the handle is left not joinable, one join was performed if the handle was
joinable and none otherwise, and a second run performs no join and changes nothing.
`join()` is only called on a joinable handle, so its `invalid_argument` error, which it
throws exactly on a handle that is not joinable, is unreachable from the step and from
the destructor. On a joinable handle of the calling thread itself the step throws
`resource_deadlock_would_occur` and leaves the handle as it is; on a joinable handle
whose thread does not finish the step never returns. -/
theorem join_if_joinable_idempotent (w : World) :
    ((ThreadGuard.join_if_joinable w).bind ThreadGuard.join_if_joinable
      = ThreadGuard.join_if_joinable w) ∧
    (∀ w1, ThreadGuard.join_if_joinable w = Ended.returned w1 →
      joinable w1 = false ∧
      w1.joins = w.joins + (if joinable w = true then 1 else 0) ∧
      ThreadGuard.join_if_joinable w1 = Ended.returned w1) ∧
    ((joinable w = false ∨ contract w) →
      ∃ w1, ThreadGuard.join_if_joinable w = Ended.returned w1) ∧
    (∀ w1, ThreadGuard.join_if_joinable w ≠ Ended.thrown SystemError.invalid_argument w1) ∧
    (∀ w1, ThreadGuard.destroy w ≠ Ended.thrown SystemError.invalid_argument w1) ∧
    ((∃ w1, join w = Ended.thrown SystemError.invalid_argument w1) ↔ joinable w = false) ∧
    (joinable w = true → w.t.of_caller = true →
      ThreadGuard.join_if_joinable w
        = Ended.thrown SystemError.resource_deadlock_would_occur w) ∧
    (joinable w = true → w.t.of_caller = false → w.t.finishes = false →
      ThreadGuard.join_if_joinable w = Ended.never) ∧
    ThreadGuard.destroy w = (ThreadGuard.join_if_joinable w).bind
      (fun w2 => Ended.returned { w2 with cout := w2.cout ++ ["t_ has been join()."] }) := by
  obtain ⟨⟨j, c, f⟩, n, out⟩ := w
  cases j <;> cases c <;> cases f <;>
    simp [ThreadGuard.join_if_joinable, ThreadGuard.destroy, join, joinable, contract,
      Ended.bind]

/-- Two runs of the step on a joinable handle of another thread that finishes: one join,
handle not joinable. -/
theorem join_if_joinable_scenario :
    (ThreadGuard.join_if_joinable ⟨⟨true, false, true⟩, 0, []⟩).bind
        ThreadGuard.join_if_joinable
      = Ended.returned ⟨⟨false, false, true⟩, 1, []⟩ ∧
    ThreadGuard.join_if_joinable ⟨⟨false, false, true⟩, 1, []⟩
      = Ended.returned ⟨⟨false, false, true⟩, 1, []⟩ :=
  ⟨rfl, rfl⟩

end concur
